import Mathlib

set_option maxRecDepth 20000
set_option maxHeartbeats 1000000

/-!
Shallow embedding of the document-analysis and tool-using-conversation core of
the research-assistant backend.  JavaScript strings are modelled as `List Char`,
JS exceptions as `Except`, and the LLM provider / database as explicit function
parameters.  Definitions are translated from the source files
(`src/services/gemini.service.js`, `src/migrations/add-tier-system.js`,
`src/controllers/paperChat.controller.js`, and the paper controller holding
`chunkTextBySections` / `chunkTextBySize` / `processChunksWithGemini`).
-/

namespace Js

/-- JS whitespace (`\s`, and the set trimmed by `String.prototype.trim`),
restricted to the ASCII range that occurs in this code base. -/
def isWS (c : Char) : Bool :=
  c == ' ' || c == '\t' || c == '\n' || c == '\r' || c == '\x0b' || c == '\x0c'

/-- `String.prototype.trim`. -/
def trim (s : List Char) : List Char :=
  ((s.dropWhile isWS).reverse.dropWhile isWS).reverse

/-- Does the text contain at least one non-whitespace character? -/
def hasNonWS (s : List Char) : Bool := s.any (fun c => !isWS c)

/-- `query.split(/\s+/)`: split on maximal whitespace runs. -/
def splitWsAux : Nat → List Char → List Char → List (List Char)
  | 0, acc, _ => [acc.reverse]
  | _ + 1, acc, [] => [acc.reverse]
  | fuel + 1, acc, c :: rest =>
    if isWS c then acc.reverse :: splitWsAux fuel [] (rest.dropWhile isWS)
    else splitWsAux fuel (c :: acc) rest

def splitWs (s : List Char) : List (List Char) :=
  splitWsAux (s.length + 1) [] s

/-- `litAt pat s`: the literal `pat` occurs at the head of `s`
(regex literal matching). -/
def litAt : List Char → List Char → Bool
  | [], _ => true
  | _ :: _, [] => false
  | p :: ps, c :: cs => p == c && litAt ps cs

/-- ASCII lower-casing (for the case-insensitive regex flags used here). -/
def lowerC (c : Char) : Char :=
  if 'A' ≤ c ∧ c ≤ 'Z' then Char.ofNat (c.toNat + 32) else c

def lower (s : List Char) : List Char := s.map lowerC

/-- Case-insensitive literal match at the head of `s`. -/
def litAtCI (pat s : List Char) : Bool := litAt (lower pat) (lower s)

/-- Case-insensitive substring test (`new RegExp(escapeRegExp(term), "i")`
applied to a text). -/
def containsCI : List Char → List Char → Bool
  | _, [] => false
  | pat, s@(_ :: rest) => litAtCI pat s || containsCI pat rest

end Js

namespace PaperController

open Js

/-!
### Chunker (paper controller)

```js
const normalizeText = (text) => text.replace(/\s+/g, " ").trim();
function chunkTextBySections(text, fallbackChunkSize = 3000) { ... }
function chunkTextBySize(text, chunkSize = 3000) { ... }
```
-/

/-- `text.replace(/\s+/g, " ")`: every maximal whitespace run becomes a single
space.  The boolean argument records whether the previous character was part of
a whitespace run. -/
def collapseGo : Bool → List Char → List Char
  | _, [] => []
  | prevWs, c :: rest =>
    if isWS c then
      if prevWs then collapseGo true rest else ' ' :: collapseGo true rest
    else c :: collapseGo false rest

/-- `normalizeText` from the paper controller. -/
def normalizeText (s : List Char) : List Char := trim (collapseGo false s)

/-- Match of the paragraph separator `/\n\s*\n/` at the head of the input
(greedy `\s*` with backtracking): a `'\n'`, then the longest whitespace run
that still ends just before another `'\n'`.  Returns the remainder after the
matched separator, or `none` when no separator starts here. -/
def paraSepSplit : List Char → Option (List Char)
  | '\n' :: t =>
    let w := t.takeWhile isWS
    match ((List.range w.length).filter (fun j => w.get? j == some '\n')).getLast? with
    | none => none
    | some j => some (t.drop (j + 1))
  | _ => none

/-- `text.split(/\n\s*\n/)`, by a left-to-right scan (fuel is the remaining
length plus one, which a scan consuming at least one character per step can
never exhaust). -/
def splitParasAux : Nat → List Char → List Char → List (List Char)
  | 0, acc, _ => [acc.reverse]
  | _ + 1, acc, [] => [acc.reverse]
  | fuel + 1, acc, c :: rest =>
    match paraSepSplit (c :: rest) with
    | some rem => acc.reverse :: splitParasAux fuel [] rem
    | none => splitParasAux fuel (c :: acc) rest

def splitParas (s : List Char) : List (List Char) :=
  splitParasAux (s.length + 1) [] s

/-- One step of the paragraph-accumulation loop of `chunkTextBySize`:
state is `(chunks, currentChunk)`. -/
def bySizeStep (chunkSize : Nat) (st : List (List Char) × List Char)
    (para : List Char) : List (List Char) × List Char :=
  let (chunks, current) := st
  if current.length + para.length > chunkSize ∧ 0 < current.length then
    (chunks ++ [trim current], para)
  else
    (chunks, if current.isEmpty then para else current ++ ('\n' :: '\n' :: para))

/-- The mechanical fallback of `chunkTextBySize`:
`Array.from({length: Math.ceil(len/size)}, (_, i) => text.slice(i*size, (i+1)*size).trim())`.
(The JS code is only ever called with a positive `chunkSize`; for
`chunkSize = 0` it would throw, while this model returns `[]`.) -/
def mechanicalChunks (text : List Char) (chunkSize : Nat) : List (List Char) :=
  (List.range ((text.length + chunkSize - 1) / chunkSize)).map
    (fun i => trim ((text.drop (i * chunkSize)).take chunkSize))

/-- `chunkTextBySize` from the paper controller. -/
def chunkTextBySize (text : List Char) (chunkSize : Nat) : List (List Char) :=
  let paragraphs := splitParas text
  let st := paragraphs.foldl (bySizeStep chunkSize) ([], [])
  let chunks := if st.2.isEmpty then st.1 else st.1 ++ [trim st.2]
  if chunks.length ≤ 1 ∧ chunkSize < text.length then
    mechanicalChunks text chunkSize
  else chunks

/-- `\s*[:.\n]` at the head of the input (with the regex backtracking that lets
`\s*` give back a final newline so that `[:.\n]` can consume it). -/
def wsStarThenClass : List Char → Bool
  | [] => false
  | c :: rest =>
    (c == ':' || c == '.' || c == '\n') || (isWS c && wsStarThenClass rest)

/-- `\s*(?:ALT₁|…|ALTₙ)\s*[:.\n]` at the head of the input; the optional
suffixes (`METHODS?`, `(?:CONCLUSION|Conclusion)s?`) are expanded into explicit
alternatives in the lists below. -/
def wsStarThenAlt (alts : List (List Char)) : List Char → Bool
  | [] => false
  | s@(c :: rest) =>
    alts.any (fun a => litAt a s && wsStarThenClass (s.drop a.length)) ||
      (isWS c && wsStarThenAlt alts rest)

/-- First match index of a pattern `\n\s*(?:ALTS)\s*[:.\n]` (non-global
`String.prototype.match(...).index`). -/
def patFirstIdxAux (alts : List (List Char)) : Nat → List Char → Option Nat
  | _, [] => none
  | i, c :: rest =>
    if c == '\n' ∧ wsStarThenAlt alts rest then some i
    else patFirstIdxAux alts (i + 1) rest

def patFirstIdx (alts : List (List Char)) (text : List Char) : Option Nat :=
  patFirstIdxAux alts 0 text

def isDigit (c : Char) : Bool := '0' ≤ c ∧ c ≤ '9'
def isUpperAZ (c : Char) : Bool := 'A' ≤ c ∧ c ≤ 'Z'

/-- Length of a match of `\s*(?:\d+\.|\d+\s+)[A-Z][^.!?]*[:.\n]` at the head of
the input (i.e. of the numbered-section pattern after its leading `'\n'`).
Greedy semantics: `\s*` and `\d+` are maximal-munch (the following literals are
never whitespace or digits), the alternative `\d+\.` is tried before
`\d+\s+`, and `[^.!?]*[:.\n]` takes the furthest terminator: the first
`'.'`/`'!'`/`'?'` if it is a `'.'`, otherwise the last `':'` or `'\n'` before
it. -/
def numberedTailLen (t : List Char) : Option Nat :=
  let ws := t.takeWhile isWS
  let t1 := t.drop ws.length
  let ds := t1.takeWhile isDigit
  if ds.length = 0 then none else
  let t2 := t1.drop ds.length
  let afterNum : Option (Nat × List Char) :=
    match t2 with
    | '.' :: r => some (ws.length + ds.length + 1, r)
    | _ =>
      let ws2 := t2.takeWhile isWS
      if ws2.length = 0 then none
      else some (ws.length + ds.length + ws2.length, t2.drop ws2.length)
  match afterNum with
  | none => none
  | some (pre, t3) =>
    match t3 with
    | [] => none
    | u :: body =>
      if ¬ isUpperAZ u then none else
      let stop := body.takeWhile (fun c => ¬ (c == '.' || c == '!' || c == '?'))
      let bnd := stop.length
      if body.get? bnd == some '.' then some (pre + 1 + bnd + 1)
      else
        match (List.range bnd).filter
            (fun k => body.get? k == some ':' || body.get? k == some '\n') with
        | [] => none
        | ks => some (pre + 1 + ks.getLast! + 1)

/-- All match indices of the global numbered-section pattern
`/\n\s*(?:\d+\.|\d+\s+)[A-Z][^.!?]*[:.\n]/g` (the `exec` loop advances
`lastIndex` to the end of each match, so matches never overlap). -/
def numberedAux : Nat → Nat → List Char → List Nat
  | 0, _, _ => []
  | _ + 1, _, [] => []
  | fuel + 1, i, c :: rest =>
    if c == '\n' then
      match numberedTailLen rest with
      | some len =>
        i :: numberedAux fuel (i + 1 + len) (rest.drop len)
      | none => numberedAux fuel (i + 1) rest
    else numberedAux fuel (i + 1) rest

def numberedIndices (text : List Char) : List Nat :=
  numberedAux (text.length + 1) 0 text

def altsAbstract : List (List Char) :=
  ["ABSTRACT".toList, "Abstract".toList, "abstract".toList]
def altsIntro : List (List Char) :=
  ["INTRODUCTION".toList, "Introduction".toList, "introduction".toList]
def altsMethods : List (List Char) :=
  ["METHODS".toList, "METHOD".toList, "Methods".toList, "Method".toList,
   "METHODOLOGY".toList, "Methodology".toList]
def altsResults : List (List Char) :=
  ["RESULTS".toList, "RESULT".toList, "Results".toList, "Result".toList]
def altsDiscussion : List (List Char) :=
  ["DISCUSSION".toList, "Discussion".toList]
def altsConclusion : List (List Char) :=
  ["CONCLUSIONs".toList, "CONCLUSION".toList, "Conclusions".toList,
   "Conclusion".toList]
def altsReferences : List (List Char) :=
  ["REFERENCES".toList, "References".toList, "BIBLIOGRAPHY".toList,
   "Bibliography".toList]

/-- The raw list of section-break offsets pushed by the pattern loop of
`chunkTextBySections` (one `match.index` per non-global pattern, every match
index of the global numbered pattern), followed by `0` and `text.length`. -/
def rawBreaks (text : List Char) : List Nat :=
  ([patFirstIdx altsAbstract text, patFirstIdx altsIntro text,
    patFirstIdx altsMethods text, patFirstIdx altsResults text,
    patFirstIdx altsDiscussion text, patFirstIdx altsConclusion text,
    patFirstIdx altsReferences text].filterMap id)
  ++ numberedIndices text ++ [0, text.length]

/-- `[...new Set(sectionBreaks)].sort((a,b) => a-b)`: since every break offset
is at most `text.length`, the sorted deduplicated list is the ascending
filter of `0..text.length` by membership. -/
def sortedBreaks (text : List Char) : List Nat :=
  (List.range (text.length + 1)).filter (fun i => (rawBreaks text).contains i)

/-- `text.substring(start, stop)` for `start ≤ stop`. -/
def substr (text : List Char) (start stop : Nat) : List Char :=
  (text.drop start).take (stop - start)

/-- One step of the section loop of `chunkTextBySections`: skip sections
shorter than 50 characters, re-split oversized sections with
`chunkTextBySize`, otherwise push the section. -/
def sectionStep (text : List Char) (fallbackChunkSize : Nat)
    (chunks : List (List Char)) (se : Nat × Nat) : List (List Char) :=
  let sec := trim (substr text se.1 se.2)
  if sec.length < 50 then chunks
  else if fallbackChunkSize < sec.length then
    chunks ++ chunkTextBySize sec fallbackChunkSize
  else chunks ++ [sec]

/-- The chunk list of `chunkTextBySections` before its final
`chunks.length <= 1` fallback check. -/
def sectionChunksPre (text : List Char) (fallbackChunkSize : Nat) :
    List (List Char) :=
  let breaks := sortedBreaks text
  (breaks.zip breaks.tail).foldl (sectionStep text fallbackChunkSize) []

/-- `chunkTextBySections` from the paper controller. -/
def chunkTextBySections (text : List Char) (fallbackChunkSize : Nat) :
    List (List Char) :=
  let chunks := sectionChunksPre text fallbackChunkSize
  if chunks.length ≤ 1 then chunkTextBySize text fallbackChunkSize
  else chunks

/-! Concrete inputs for the chunker claims. -/

/-- The document text of the concrete chunking scenario in the spec. -/
def c6Text : List Char := "ABSTRACT\nFoo bar.\nINTRODUCTION\nBaz qux.".toList

/-- A non-empty, whitespace-only input. -/
def c5WsOnly : List Char := "\n\n".toList

/-- An input whose first paragraph (200 chars) exceeds the fallback size 60. -/
def c5Oversize : List Char :=
  List.replicate 200 'x' ++ ('\n' :: '\n' :: List.replicate 60 'y')

/-- An input whose final detected section (19 chars after trimming, carrying
all the `'z'` characters) is below the 50-character floor. -/
def c5Dropped : List Char :=
  List.replicate 60 'a' ++ "\nIntroduction.\n".toList ++ List.replicate 60 'b'
    ++ "\nResults.\n".toList ++ List.replicate 10 'z'

/-- A normalized (newline-free) text longer than the upload path's default
fallback size 3000. -/
def c10Text : List Char :=
  List.replicate 1500 'x' ++ (' ' :: List.replicate 1501 'y')

end PaperController

namespace GeminiService

/-!
### Rate limiter (`rateLimitedCall` in gemini.service.js; the identical code
also appears in the migrations copy of the service).

```js
async function rateLimitedCall(fn, tier = "free") {
    const limit = RATE_LIMIT[tier] || RATE_LIMIT.free;
    if (Date.now() - lastRequestTime > limit.perMinutes * 60 * 1000) {
        requestCount = 0;
        lastRequestTime = Date.now();
    }
    while (requestCount >= limit.requests) {
        const waitTime =
            limit.perMinutes * 60 * 1000 - (Date.now() - lastRequestTime);
        await setTimeout(waitTime + 1000);
        requestCount = 0;
        lastRequestTime = Date.now();
    }
    requestCount++;
    return fn();
}
```
-/

/-- A per-tier rate budget (one row of `RATE_LIMIT`). -/
structure Tier where
  requests : Nat
  perMinutes : Nat
  delayBetweenChunks : Nat

def RATE_LIMIT_free : Tier := ⟨15, 1, 5000⟩
def RATE_LIMIT_pro : Tier := ⟨60, 1, 1000⟩
def RATE_LIMIT_enterprise : Tier := ⟨300, 1, 500⟩

/-- The module-level mutable pair `requestCount` / `lastRequestTime`
(times in milliseconds, as from `Date.now()`). -/
structure RLState where
  requestCount : Nat
  lastRequestTime : Nat

def windowMs (t : Tier) : Nat := t.perMinutes * 60 * 1000

/-- The admission logic of one `rateLimitedCall` at wall-clock time `now`:
expire the window, then either suspend until the remaining window time plus
the fixed 1000 ms safety margin has passed and reset, or increment the counter
and proceed immediately.  Returns the state after the call and the time at
which `fn()` starts.  Faithful to the JS whenever `t.requests ≥ 1` and
`lastRequestTime ≤ now` (for a zero-request tier the JS while-loop would
simply never terminate, and the loop body runs at most once otherwise). -/
def acquire (t : Tier) (st : RLState) (now : Nat) : RLState × Nat :=
  let st1 := if windowMs t < now - st.lastRequestTime then
      ({ requestCount := 0, lastRequestTime := now } : RLState) else st
  if t.requests ≤ st1.requestCount then
    let resume := now + (windowMs t - (now - st1.lastRequestTime)) + 1000
    (⟨1, resume⟩, resume)
  else
    (⟨st1.requestCount + 1, st1.lastRequestTime⟩, now)

/-- A granted acquisition: when `fn()` started and which window start
(`lastRequestTime` value) the grant was counted against. -/
structure GrantRec where
  time : Nat
  ws : Nat

/-- A sequence of sequential `rateLimitedCall`s: `ds` lists the delays between
one grant and the next call (callers are serialized, per the single-writer
invariant of the spec). -/
def runAcquires (t : Tier) : RLState → Nat → List Nat → List GrantRec
  | _, _, [] => []
  | st, now0, d :: ds =>
    let call := now0 + d
    let r := acquire t st call
    ⟨r.2, r.1.lastRequestTime⟩ :: runAcquires t r.1 r.2 ds

end GeminiService

/-!
### JSON values and `JSON.parse`

JavaScript values flowing through the response parsers and the agent loop are
modelled by `Json`; `undef` stands for the JavaScript `undefined` produced by
reading a missing property.  Numbers keep their source lexeme — this code
never computes with a parsed number.
-/

inductive Json where
  | undef
  | null
  | bool (b : Bool)
  | num (lexeme : List Char)
  | str (s : List Char)
  | arr (elems : List Json)
  | obj (fields : List (List Char × Json))

instance : Inhabited Json := ⟨Json.undef⟩

def Json.isObj : Json → Bool
  | .obj _ => true
  | _ => false

namespace JsonParse

open Js

/-- JSON whitespace (only space, tab, LF, CR — narrower than `\s`). -/
def isJWS (c : Char) : Bool := c == ' ' || c == '\t' || c == '\n' || c == '\r'

def skipWs (s : List Char) : List Char := s.dropWhile isJWS

def isDigitC (c : Char) : Bool := '0' ≤ c ∧ c ≤ '9'

def hexVal (c : Char) : Option Nat :=
  if '0' ≤ c ∧ c ≤ '9' then some (c.toNat - '0'.toNat)
  else if 'a' ≤ c ∧ c ≤ 'f' then some (c.toNat - 'a'.toNat + 10)
  else if 'A' ≤ c ∧ c ≤ 'F' then some (c.toNat - 'A'.toNat + 10)
  else none

def decodeEsc (c : Char) : Option Char :=
  if c = '"' then some '"'
  else if c = '\\' then some '\\'
  else if c = '/' then some '/'
  else if c = 'b' then some '\x08'
  else if c = 'f' then some '\x0c'
  else if c = 'n' then some '\n'
  else if c = 'r' then some '\r'
  else if c = 't' then some '\t'
  else none

/-- String body after the opening quote.  Raw control characters are a
`SyntaxError` in `JSON.parse` (surrogate-pair `\u` escapes are approximated by
`Char.ofNat`, which this code base never relies on). -/
def parseStr : List Char → Option (List Char × List Char)
  | [] => none
  | '"' :: rest => some ([], rest)
  | '\\' :: rest =>
    match rest with
    | [] => none
    | 'u' :: h1 :: h2 :: h3 :: h4 :: rest2 =>
      match hexVal h1, hexVal h2, hexVal h3, hexVal h4 with
      | some a, some b, some c, some d =>
        (fun p => (Char.ofNat (((a * 16 + b) * 16 + c) * 16 + d) :: p.1, p.2))
          <$> parseStr rest2
      | _, _, _, _ => none
    | e :: rest2 =>
      match decodeEsc e with
      | some c => (fun p => (c :: p.1, p.2)) <$> parseStr rest2
      | none => none
  | c :: rest =>
    if c.toNat < 0x20 then none
    else (fun p => (c :: p.1, p.2)) <$> parseStr rest

/-- Exponent part of a JSON number (returns the full lexeme and the rest). -/
def numExp (lex r : List Char) : Option (List Char × List Char) :=
  match r with
  | [] => some (lex, r)
  | e :: r1 =>
    if e = 'e' ∨ e = 'E' then
      let p : List Char × List Char :=
        match r1 with
        | '+' :: r2 => (['+'], r2)
        | '-' :: r2 => (['-'], r2)
        | _ => ([], r1)
      let ds := p.2.takeWhile isDigitC
      if ds.length = 0 then none
      else some (lex ++ e :: p.1 ++ ds, p.2.drop ds.length)
    else some (lex, r)

/-- Fraction part of a JSON number. -/
def numFrac (lex r : List Char) : Option (List Char × List Char) :=
  match r with
  | '.' :: r1 =>
    let ds := r1.takeWhile isDigitC
    if ds.length = 0 then none
    else numExp (lex ++ '.' :: ds) (r1.drop ds.length)
  | _ => numExp lex r

/-- A JSON number literal: `-? (0 | [1-9][0-9]*) frac? exp?`. -/
def parseNum (s : List Char) : Option (List Char × List Char) :=
  let p : List Char × List Char :=
    match s with
    | '-' :: r => (['-'], r)
    | _ => ([], s)
  match p.2 with
  | [] => none
  | c :: r =>
    if c = '0' then numFrac (p.1 ++ ['0']) r
    else if isDigitC c then
      let ds := p.2.takeWhile isDigitC
      numFrac (p.1 ++ ds) (p.2.drop ds.length)
    else none

/-- The parser's mode: a value, the members of an object being read, or the
elements of an array being read (the accumulators carry what has been read so
far).  A single mode-indexed function keeps the recursion structural on the
fuel, so the kernel can evaluate it. -/
inductive PMode where
  | val
  | mems (acc : List (List Char × Json))
  | elems (acc : List Json)

/-- A JSON value (or member/element list) preceded by optional whitespace.
Fuel `length + 1` can never run out because every fuel-consuming step first
consumes at least one input character.  On duplicate keys `JSON.parse` keeps
the last value, which the field lookup below reproduces by scanning from the
right. -/
def parseJ : Nat → PMode → List Char → Option (Json × List Char)
  | 0, _, _ => none
  | fuel + 1, PMode.val, s =>
    match skipWs s with
    | [] => none
    | '\x7b' :: r =>
      match skipWs r with
      | '\x7d' :: r1 => some (Json.obj [], r1)
      | r1 => parseJ fuel (PMode.mems []) r1
    | '[' :: r =>
      match skipWs r with
      | ']' :: r1 => some (Json.arr [], r1)
      | r1 => parseJ fuel (PMode.elems []) r1
    | '"' :: r => (fun p => (Json.str p.1, p.2)) <$> parseStr r
    | 't' :: r =>
      if litAt "rue".toList r then some (Json.bool true, r.drop 3) else none
    | 'f' :: r =>
      if litAt "alse".toList r then some (Json.bool false, r.drop 4) else none
    | 'n' :: r =>
      if litAt "ull".toList r then some (Json.null, r.drop 3) else none
    | s1 => (fun p => (Json.num p.1, p.2)) <$> parseNum s1
  | fuel + 1, PMode.mems acc, s =>
    match skipWs s with
    | '"' :: r =>
      match parseStr r with
      | none => none
      | some (key, r1) =>
        match skipWs r1 with
        | ':' :: r2 =>
          match parseJ fuel PMode.val r2 with
          | none => none
          | some (v, r3) =>
            match skipWs r3 with
            | ',' :: r4 => parseJ fuel (PMode.mems (acc ++ [(key, v)])) r4
            | '\x7d' :: r4 => some (Json.obj (acc ++ [(key, v)]), r4)
            | _ => none
        | _ => none
    | _ => none
  | fuel + 1, PMode.elems acc, s =>
    match parseJ fuel PMode.val s with
    | none => none
    | some (v, r) =>
      match skipWs r with
      | ',' :: r2 => parseJ fuel (PMode.elems (acc ++ [v])) r2
      | ']' :: r2 => some (Json.arr (acc ++ [v]), r2)
      | _ => none

end JsonParse

/-- `JSON.parse`: a whole-string JSON document, or `none` (a `SyntaxError`). -/
def jsonParse (s : List Char) : Option Json :=
  match JsonParse.parseJ (s.length + 1) JsonParse.PMode.val s with
  | some (j, rest) => if JsonParse.skipWs rest = [] then some j else none
  | none => none

namespace GeminiService

open Js

/-- `/```json\s*/gi` match at the head of the input: three backticks, `json`
case-insensitively, then greedy `\s*`.  Returns the remainder. -/
def isTick (c : Char) : Bool := c.toNat == 96

def fenceJsonSplit (s : List Char) : Option (List Char) :=
  match s with
  | c1 :: c2 :: c3 :: j :: s2 :: o :: n2 :: r =>
    if isTick c1 && isTick c2 && isTick c3 && (lowerC j == 'j') &&
        (lowerC s2 == 's') && (lowerC o == 'o') && (lowerC n2 == 'n') then
      some (r.dropWhile isWS)
    else none
  | _ => none

/-- `.replace(/```json\s*/gi, "")` (left-to-right, non-overlapping). -/
def stripFencesJson : Nat → List Char → List Char
  | 0, s => s
  | _ + 1, [] => []
  | fuel + 1, c :: rest =>
    match fenceJsonSplit (c :: rest) with
    | some r => stripFencesJson fuel r
    | none => c :: stripFencesJson fuel rest

def tickTickTickSplit (s : List Char) : Option (List Char) :=
  match s with
  | c1 :: c2 :: c3 :: r =>
    if isTick c1 && isTick c2 && isTick c3 then some r else none
  | _ => none

/-- `.replace(/```/g, "")`. -/
def stripTicks : Nat → List Char → List Char
  | 0, s => s
  | _ + 1, [] => []
  | fuel + 1, c :: rest =>
    match tickTickTickSplit (c :: rest) with
    | some r => stripTicks fuel r
    | none => c :: stripTicks fuel rest

/-- `.replace(/[\u0000-\u001F\u007F-\u009F]/g, "")`. -/
def stripCtrl (s : List Char) : List Char :=
  s.filter (fun c => !(c.toNat ≤ 0x1F || (0x7F ≤ c.toNat && c.toNat ≤ 0x9F)))

/-- The cleaning step of `parseGeminiResponse` in gemini.service.js: strip
` ```json ` fences and stray backticks, then trim. -/
def cleanResponse (s : List Char) : List Char :=
  let s1 := stripFencesJson (s.length + 1) s
  trim (stripTicks (s1.length + 1) s1)

/-- `parseGeminiResponse` from gemini.service.js, on string input (its callers
always pass the model's text response): clean, `JSON.parse`, and on any parse
error return the fixed fallback object. -/
def parseGeminiResponse (response : List Char) : Json :=
  match jsonParse (cleanResponse response) with
  | some j => j
  | none =>
    Json.obj [("function_call".toList, Json.null),
      ("thinking_process".toList, Json.null),
      ("final_answer".toList, Json.str "Error processing response".toList)]

end GeminiService

namespace Migrations

open Js

/-!
### `parseGeminiResponse` from src/migrations/add-tier-system.js

Clean (fences, backticks, control characters, trim) and `JSON.parse`; on
failure run three salvage strategies — fix an unterminated string and
unbalanced braces/brackets, extract the outermost `{...}` span, harvest
individual `"key": value` pairs — and finally return a degraded fallback
object carrying the first 500 characters of the raw response and the parse
error.
-/

/-- The migrations cleaning chain: fences, backticks, control characters,
trim. -/
def cleanMig (s : List Char) : List Char :=
  let s1 := GeminiService.stripFencesJson (s.length + 1) s
  let s2 := GeminiService.stripTicks (s1.length + 1) s1
  trim (GeminiService.stripCtrl s2)

/-- Tail of the unterminated-string regex `/"([^"\\]*(\\.[^"\\]*)*)$/`: after
some quote, only escape pairs and non-quote non-backslash characters up to the
end of the string. -/
def validStrTail : List Char → Bool
  | [] => true
  | ['\\'] => false
  | '\\' :: _ :: rest => validStrTail rest
  | c :: rest => if c = '"' then false else validStrTail rest

/-- Does `/"([^"\\]*(\\.[^"\\]*)*)$/` match somewhere in the string? -/
def untermStr : List Char → Bool
  | [] => false
  | '"' :: rest => validStrTail rest || untermStr rest
  | _ :: rest => untermStr rest

def countC (c : Char) (s : List Char) : Nat := s.countP (fun x => x == c)

/-- Salvage strategy 1: close an unterminated string, append the missing
closing braces and brackets (all counts taken before appending), clean, and
reparse. -/
def salvage1 (response : List Char) : Option Json :=
  let f1 := if untermStr response then response ++ ['"'] else response
  let f2 := f1 ++ List.replicate (countC '\x7b' f1 - countC '\x7d' f1) '\x7d'
    ++ List.replicate (countC '[' f1 - countC ']' f1) ']'
  jsonParse (cleanMig f2)

def firstIdx (c : Char) (s : List Char) : Option Nat :=
  s.findIdx? (fun x => x == c)

def lastIdx (c : Char) (s : List Char) : Option Nat :=
  match s.reverse.findIdx? (fun x => x == c) with
  | none => none
  | some k => some (s.length - 1 - k)

/-- Salvage strategy 2: the greedy `/\{[\s\S]*\}/` match — from the first
opening brace to the last closing brace — stripped of control characters and
reparsed. -/
def salvage2 (response : List Char) : Option Json :=
  match firstIdx '\x7b' response, lastIdx '\x7d' response with
  | some i, some j =>
    if i < j then
      jsonParse (GeminiService.stripCtrl ((response.drop i).take (j + 1 - i)))
    else none
  | _, _ => none

/-- The value alternatives of the pair-harvesting regex, in alternation
order: `"[^"]*"`, `[\d\.]+`, `true`, `false`, `null`, lazy `\{[\s\S]*?\}`,
lazy `\[[\s\S]*?\]`. -/
def kvValueLex (s : List Char) : Option (List Char × List Char) :=
  match s with
  | '"' :: r =>
    let body := r.takeWhile (fun c => !(c == '"'))
    if body.length < r.length then
      some ('"' :: body ++ ['"'], r.drop (body.length + 1))
    else none
  | _ =>
    let digs := s.takeWhile (fun c => JsonParse.isDigitC c || c == '.')
    if digs.length ≠ 0 then some (digs, s.drop digs.length)
    else if litAt "true".toList s then some ("true".toList, s.drop 4)
    else if litAt "false".toList s then some ("false".toList, s.drop 5)
    else if litAt "null".toList s then some ("null".toList, s.drop 4)
    else
      match s with
      | c :: r =>
        if c == '\x7b' then
          let body := r.takeWhile (fun x => !(x == '\x7d'))
          if body.length < r.length then
            some (c :: body ++ ['\x7d'], r.drop (body.length + 1))
          else none
        else if c == '[' then
          let body := r.takeWhile (fun x => !(x == ']'))
          if body.length < r.length then
            some (c :: body ++ [']'], r.drop (body.length + 1))
          else none
        else none
      | [] => none

/-- One match of `/"([^"]+)"\s*:\s*(VALUE)/` at the head of the input:
`((key, value lexeme), rest after the match)`. -/
def kvMatchAt (s : List Char) : Option ((List Char × List Char) × List Char) :=
  match s with
  | '"' :: r =>
    let key := r.takeWhile (fun c => !(c == '"'))
    if key.length = 0 then none
    else if key.length < r.length then
      let r2 := (r.drop (key.length + 1)).dropWhile isWS
      match r2 with
      | ':' :: r3 =>
        match kvValueLex (r3.dropWhile isWS) with
        | some (lex, rest) => some ((key, lex), rest)
        | none => none
      | _ => none
    else none
  | _ => none

/-- `keyValuePairs[key] = value`: replace an existing key in place, else
append. -/
def objUpsert (fields : List (List Char × Json)) (key : List Char) (v : Json) :
    List (List Char × Json) :=
  if fields.any (fun f => f.1 == key) then
    fields.map (fun f => if f.1 == key then (f.1, v) else f)
  else fields ++ [(key, v)]

/-- The `exec` loop of salvage strategy 3: leftmost matches, `lastIndex`
advanced past each match; pairs whose value lexeme fails `JSON.parse` are
skipped. -/
def kvScan : Nat → List Char → List (List Char × Json) →
    List (List Char × Json)
  | 0, _, acc => acc
  | _ + 1, [], acc => acc
  | fuel + 1, c :: rest, acc =>
    match kvMatchAt (c :: rest) with
    | some ((key, lex), r) =>
      match jsonParse lex with
      | some v => kvScan fuel r (objUpsert acc key v)
      | none => kvScan fuel r acc
    | none => kvScan fuel rest acc

def salvage3 (response : List Char) : Option Json :=
  let pairs := kvScan (response.length + 1) response []
  if pairs.isEmpty then none else some (Json.obj pairs)

/-- The JS engine's `error.message` (its exact text is engine-specific and not
modelled). -/
def parseErrMsg : List Char := "JSON parse error".toList

/-- The final degraded fallback object: first 500 characters of the raw
response as `main_idea` plus the parse error. -/
def fallbackObj (response : List Char) : Json :=
  Json.obj [("function_call".toList, Json.null),
    ("thinking_process".toList, Json.null),
    ("final_answer".toList, Json.obj [("content".toList, Json.obj
      [("main_idea".toList, Json.str (response.take 500)),
       ("parse_error".toList, Json.str parseErrMsg)])])]

/-- The salvage chain run by the catch block of the migrations
`parseGeminiResponse` (each strategy's own parse failures are swallowed by its
inner try/catch, so the chain is a pure fallback cascade). -/
def salvageChain (response : List Char) : Json :=
  match salvage1 response with
  | some j => j
  | none =>
    match salvage2 response with
    | some j => j
    | none =>
      match salvage3 response with
      | some j => j
      | none => fallbackObj response

/-- `parseGeminiResponse` from the migrations file, on string input. -/
def parseGeminiResponse (response : List Char) : Json :=
  match jsonParse (cleanMig response) with
  | some j => j
  | none => salvageChain response

/-- The same function with its exception behaviour made explicit: the body's
`JSON.parse` throw is the only escaping exception candidate, and the catch
block always returns normally. -/
def jsonParseE (s : List Char) : Except (List Char) Json :=
  match jsonParse s with
  | some j => Except.ok j
  | none => Except.error parseErrMsg

def parseGeminiResponseE (response : List Char) : Except (List Char) Json :=
  match jsonParseE (cleanMig response) with
  | .ok j => .ok j
  | .error _ => .ok (salvageChain response)

/-!
### Retrieval tools (`FUNCTION_HANDLERS` of the migrations file)
-/

/-- A stored chunk as projected by the search stages (`text`, `summary`,
`keywords`). -/
structure Chunk where
  text : List Char
  summary : List Char
  keywords : List (List Char)

/-- The knowledge-base record of a paper (what the `$match paper` stage
restricts the aggregation to, and what `KnowledgeBase.findOne({paper})`
returns). -/
structure KBDoc where
  chunks : List Chunk

def chunksOf : Option KBDoc → List Chunk
  | none => []
  | some k => k.chunks

/-- `searchKnowledgeBase(paperId, userId, {query, maxResults = 3})` from the
migrations file.  The first stage (`$text` full-text search ranked by
`textScore`) runs on MongoDB's text index and is modelled by the oracle
`fullText`, returning the relevance-ranked chunks for the query; its
`$limit maxResults` is applied here.  The remaining stages are computed: an
AND of case-insensitive substring matches over all query terms longer than 3
characters, one independent search per term taking the first hit each, and
finally the first chunk of the document; the hit texts are returned. -/
def searchKnowledgeBase (kb : Option KBDoc)
    (fullText : List Char → List Chunk)
    (query : List Char) (maxResults : Nat) : List (List Char) :=
  let queryTerms := (Js.splitWs query).filter (fun t => 3 < t.length)
  let r1 := (fullText query).take maxResults
  let r2 :=
    if r1.length = 0 ∧ 0 < queryTerms.length then
      ((chunksOf kb).filter
        (fun ch => queryTerms.all (fun t => Js.containsCI t ch.text))).take
        maxResults
    else r1
  let r3 :=
    if r2.length = 0 ∧ 0 < queryTerms.length then
      (queryTerms.map (fun t =>
        ((chunksOf kb).filter (fun ch => Js.containsCI t ch.text)).take 1)).flatten
    else r2
  let r4 :=
    if r3.length = 0 then
      match kb with
      | some k =>
        match k.chunks with
        | c :: _ => [c]
        | [] => r3
      | none => r3
    else r3
  r4.map (fun ch => ch.text)

/-- The populated knowledge base of a paper, as read by `getPaperDetails`
(`paper.knowledgeBase?.hierarchicalSummary`). -/
structure KBPop where
  hierarchicalSummary : Option Json

/-- A paper document as selected by `getPaperDetails` (fields that may be
absent in the store are `Option`s). -/
structure PaperDoc where
  title : List Char
  abstract : List Char
  keywords : List (List Char)
  summary : Option (List Char)
  knowledgeBase : Option KBPop

/-- A stored paper with its identity and owner. -/
structure PaperRec where
  id : Nat
  user : Nat
  doc : PaperDoc

/-- `Paper.findOne({ _id: paperId, user: userId })`. -/
def findOwned (papers : List PaperRec) (paperId userId : Nat) :
    Option PaperDoc :=
  (papers.find? (fun r => r.id == paperId && r.user == userId)).map
    (fun r => r.doc)

structure ApiError where
  status : Nat
  message : List Char

/-- The object returned by the `getPaperDetails` handler. -/
structure PaperDetails where
  title : List Char
  abstract : List Char
  keywords : List (List Char)
  summary : List Char
  hierarchicalSummary : Json

/-- `paper.knowledgeBase?.hierarchicalSummary || null`. -/
def hsOf (p : PaperDoc) : Json :=
  match p.knowledgeBase with
  | some kbp =>
    match kbp.hierarchicalSummary with
    | some h => h
    | none => Json.null
  | none => Json.null

/-- `FUNCTION_HANDLERS.getPaperDetails` from the migrations file: look up the
owned paper, throw `ApiError(404, "Paper not found")` if there is none, and
otherwise return title/abstract/keywords/summary (defaulted to the empty
string) and the populated hierarchical summary (defaulted to `null`). -/
def getPaperDetails (papers : List PaperRec) (paperId userId : Nat) :
    Except ApiError PaperDetails :=
  match findOwned papers paperId userId with
  | none => Except.error ⟨404, "Paper not found".toList⟩
  | some p =>
    Except.ok ⟨p.title, p.abstract, p.keywords,
      (match p.summary with
       | some s => s
       | none => []),
      hsOf p⟩

end Migrations

/-- JS truthiness of an embedded value (a JSON number is falsy exactly when
its mantissa has no nonzero digit). -/
def Json.truthy : Json → Bool
  | .undef => false
  | .null => false
  | .bool b => b
  | .num lex =>
    (lex.takeWhile (fun c => !(c == 'e' || c == 'E'))).any
      (fun c => '1' ≤ c ∧ c ≤ '9')
  | .str s => !s.isEmpty
  | .arr _ => true
  | .obj _ => true

def Json.isNullish : Json → Bool
  | .null => true
  | .undef => true
  | _ => false

/-- Property read `o.k` on a non-nullish receiver: `undefined` when the
receiver is not an object or lacks the key.  `JSON.parse` keeps the last of
duplicate keys, so the lookup scans the member list from the right. -/
def Json.memT (j : Json) (k : List Char) : Json :=
  match j with
  | .obj fields =>
    match fields.reverse.find? (fun p => p.1 == k) with
    | some p => p.2
    | none => .undef
  | _ => (.undef)

/-- Property read `o.k` as JS evaluates it: a `TypeError` on `null` or
`undefined`, otherwise total. -/
def Json.memE (j : Json) (k : List Char) : Except Unit Json :=
  match j with
  | .null => .error ()
  | .undef => .error ()
  | _ => .ok (j.memT k)

/-- Separator insertion of `Array.prototype.join` (over already-coerced
elements). -/
def Js.joinSep (sep : List Char) : List (List Char) → List Char
  | [] => []
  | [x] => x
  | x :: y :: rest => x ++ sep ++ Js.joinSep sep (y :: rest)

/-- JS `String(v)` on the values that occur here: numbers keep their source
lexeme, arrays are joined by commas with nullish elements rendered empty
(`Array.prototype.toString`), plain objects render as `[object Object]`. -/
def Json.jsStr : Json → List Char
  | .undef => "undefined".toList
  | .null => "null".toList
  | .bool true => "true".toList
  | .bool false => "false".toList
  | .num lex => lex
  | .str s => s
  | .obj _ => "[object Object]".toList
  | .arr l =>
    Js.joinSep [','] (l.attach.map (fun e =>
      if e.1.isNullish then [] else Json.jsStr e.1))
decreasing_by
  have := List.sizeOf_lt_of_mem e.2
  simp only [Json.arr.sizeOf_spec]
  omega

/-- Element coercion of `Array.prototype.join`: `null` and `undefined`
render empty, every other value via `String(v)`. -/
def Json.joinElem (j : Json) : List Char :=
  if j.isNullish then [] else j.jsStr

/-- SameValueZero as `new Set` compares the values that flow here:
primitives by value; arrays and objects are fresh references out of
`JSON.parse`, so they never collide. -/
def Json.primEq : Json → Json → Bool
  | .undef, .undef => true
  | .null, .null => true
  | .bool a, .bool b => a == b
  | .num a, .num b => a == b
  | .str a, .str b => a == b
  | _, _ => false

/-- First occurrences in insertion order (`[...new Set(l)]`); every step
consumes one fuel and shortens the list, so fuel `length` suffices. -/
def dedupPrimAux : Nat → List Json → List Json
  | 0, _ => []
  | _ + 1, [] => []
  | fuel + 1, a :: l =>
    a :: dedupPrimAux fuel (l.filter (fun b => !(Json.primEq a b)))

def dedupPrim (l : List Json) : List Json := dedupPrimAux l.length l

/-- How `Array.prototype.flatMap` treats one callback result: array values
are flattened one level, all others kept as single elements. -/
def Json.flatElem : Json → List Json
  | .arr l => l
  | j => [j]

namespace GeminiService

/-- Lines `Chunk i+1: <chunk>` joined by blank lines (the `formattedChunks`
local of `processBatch`). -/
def formattedChunks (chunks : List (List Char)) : List Char :=
  Js.joinSep "\n\n".toList (chunks.enum.map (fun p =>
    "Chunk ".toList ++ Nat.toDigits 10 (p.1 + 1) ++ ": ".toList ++ p.2))

/-- The batch-analysis prompt of `processBatch` (template literal, trimmed),
with the previous summary interpolated only when truthy. -/
def batchPrompt (chunks : List (List Char)) (previousSummary : Json) :
    List Char :=
  Js.trim (
    "\nYou are a JSON-only AI. Never write text or code fences, only return raw JSON.\n\nAnalyze the following paper chunks in sequence".toList
    ++ (if previousSummary.truthy then
          ", building on this previous summary: \"".toList
            ++ previousSummary.jsStr ++ "\"".toList
        else [])
    ++ ".\n\nChunks:\n".toList ++ formattedChunks chunks
    ++ "\n\nReturn a response matching this JSON format exactly:\n\n\x7b\n  \"chunks\": [\n    \x7b\n      \"summary\": \"concise summary\",\n      \"keywords\": [\"kw1\", \"kw2\"],\n      \"connections\": [\"relates_to_X\", \"contrasts_with_Y\"]\n    \x7d\n  ],\n  \"merged_summary\": \"combined narrative\"\n\x7d\n".toList)

/-- Effect of `.replace(/^\x60\x60\x60json|\x60\x60\x60$/g, "")`: the first
alternative is anchored to the start of the string, the second to its end,
so the replacement strips a leading fence literal and a trailing fence. -/
def stripFenceAnchors (s : List Char) : List Char :=
  let t := if Js.litAt "```json".toList s then s.drop 7 else s
  if 3 ≤ t.length ∧ Js.litAt "```".toList (t.drop (t.length - 3)) then
    t.take (t.length - 3)
  else t

/-- Evaluation of `result.chunks.flatMap((c) => c.keywords)`: the member
access throws on a nullish element, array results are flattened, all other
values kept as-is. -/
def keywordsOf : List Json → Except Unit (List Json)
  | [] => .ok []
  | c :: cs => do
    let k ← c.memE "keywords".toList
    let rest ← keywordsOf cs
    .ok (k.flatElem ++ rest)

structure BatchRes where
  summaries : List Json
  merged : Json
  keywords : List Json

/-- Body of the `try` of `processBatch` (gemini.service.js): call the model
on the batch prompt, strip the fence anchors, trim, `JSON.parse`, and read
`chunks`, `merged_summary` and the flat-mapped keywords; any of these steps
can throw. -/
def processBatchTry (gen : List Char → Except Unit (List Char))
    (chunks : List (List Char)) (previousSummary : Json) :
    Except Unit BatchRes := do
  let txt ← gen (batchPrompt chunks previousSummary)
  let cleaned := Js.trim (stripFenceAnchors txt)
  let result ← (match jsonParse cleaned with
    | some j => Except.ok j
    | none => Except.error ())
  let chv ← result.memE "chunks".toList
  let merged ← result.memE "merged_summary".toList
  match chv with
  | Json.arr l => do
    let kws ← keywordsOf l
    Except.ok ⟨l, merged, kws⟩
  | _ => Except.error ()

/-- The degraded per-chunk object substituted by the `catch` of
`processBatch`. -/
def analysisFailedObj : Json :=
  Json.obj [("summary".toList, Json.str "Analysis failed".toList),
    ("keywords".toList, Json.arr []),
    ("connections".toList, Json.arr [])]

/-- Function `processBatch`: the `try` body with its `catch` fallback — one
degraded object per chunk, `merged = previousSummary || ""`, no keywords. -/
def processBatch (gen : List Char → Except Unit (List Char))
    (chunks : List (List Char)) (previousSummary : Json) : BatchRes :=
  match processBatchTry gen chunks previousSummary with
  | .ok r => r
  | .error _ =>
    ⟨chunks.map (fun _ => analysisFailedObj),
      (if previousSummary.truthy then previousSummary else Json.str []),
      []⟩

/-- Slicing of the `for (i += batchSize)` loop of `analyzePaperChunks`
(`batchSize = 3`); fuel `length + 1` never runs out because every step drops
at least one element. -/
def batches3 : Nat → List (List Char) → List (List (List Char))
  | 0, _ => []
  | _ + 1, [] => []
  | fuel + 1, c :: cs =>
    (c :: cs).take 3 :: batches3 fuel ((c :: cs).drop 3)

structure AnalyzeRes where
  summaries : List Json
  aggregatedSummary : List Char
  keywordsArray : List Json

/-- Function `analyzePaperChunks` (gemini.service.js): process 3-chunk
batches sequentially — `rateLimitedCall` only defers the call, so it is
applied directly — then flatten the per-batch results; `join("\n")` coerces
each `merged` value. -/
def analyzePaperChunks (gen : List Char → Except Unit (List Char))
    (chunks : List (List Char)) (previousSummary : Json) : AnalyzeRes :=
  let results := (batches3 (chunks.length + 1) chunks).map
    (fun b => processBatch gen b previousSummary)
  ⟨(results.map (fun r => r.summaries)).flatten,
    Js.joinSep "\n".toList (results.map (fun r => r.merged.joinElem)),
    (results.map (fun r => r.keywords)).flatten⟩

/-- The `refineSummary` prompt (template literal, not trimmed). -/
def refinePrompt (summary : List Char) : List Char :=
  "You are a JSON-only AI. Return your answer only as JSON with no text or code block.\n\nCondense this summary into no more than 3 paragraphs while keeping key insights.\n\nInput summary:\n\"\"\"".toList
  ++ summary
  ++ "\"\"\"\n\nOutput:\n\x7b\n  \"summary\": \"condensed summary\"\n\x7d".toList

def fenceJsonCSSplit (s : List Char) : Option (List Char) :=
  if Js.litAt "```json".toList s then some (s.drop 7) else none

/-- Effect of `.replace(/\x60\x60\x60json/g, "")` (case-sensitive, no
whitespace eaten — distinct from the `gi` variant above). -/
def stripFencesJsonCS : Nat → List Char → List Char
  | 0, s => s
  | _ + 1, [] => []
  | fuel + 1, c :: rest =>
    match fenceJsonCSSplit (c :: rest) with
    | some r => stripFencesJsonCS fuel r
    | none => c :: stripFencesJsonCS fuel rest

/-- Function `refineSummary` (gemini.service.js): condense the summary via
the model, reading `.summary` off the parsed reply; on any failure the
`catch` returns the input unchanged. -/
def refineSummary (gen : List Char → Except Unit (List Char))
    (summary : List Char) : Json :=
  match (do
    let txt ← gen (refinePrompt summary)
    let s1 := stripFencesJsonCS (txt.length + 1) txt
    let cleaned := Js.trim (stripTicks (s1.length + 1) s1)
    let j ← (match jsonParse cleaned with
      | some j => Except.ok j
      | none => Except.error ())
    j.memE "summary".toList : Except Unit Json) with
  | .ok s => s
  | .error _ => Json.str summary

end GeminiService

namespace PaperController

/-- One stored chunk result (`\x7btext, summary, keywords\x7d`). -/
structure CR where
  text : List Char
  summary : Json
  keywords : Json

/-- One `chunkResults[chunkIndex]` entry of `processChunksWithGemini`: set
only when `batchResults.summaries[j]` is truthy, reading `summary` and
`keywords` with their `|| ""` / `|| []` defaults (the truthiness guard makes
the member reads safe). -/
def crOf (chunk : List Char) (sj : Json) : Option CR :=
  if sj.truthy then
    some ⟨chunk,
      (if (sj.memT "summary".toList).truthy then sj.memT "summary".toList
       else Json.str []),
      (if (sj.memT "keywords".toList).truthy then sj.memT "keywords".toList
       else Json.arr [])⟩
  else none

/-- The inner `for (j < batch.length)` loop of `processChunksWithGemini`:
`summaries[j]` reads past the end give `undefined`. -/
def pcwgEntries (batch : List (List Char)) (summaries : List Json) :
    List (Option CR) :=
  (List.range batch.length).map (fun j =>
    crOf (batch.getD j []) (summaries.getD j Json.undef))

/-- The outer `for (i += 2)` loop of `processChunksWithGemini`: each 2-chunk
batch is analyzed with the previously stored summary
(`i > 0 ? chunkResults[i-1]?.summary : null`; the entries fill indices
`i..i+batch.length-1` in order, so `chunkResults[i-1]` is the last entry of
the accumulator, `undefined` on a hole) and its entries are appended.  The
database progress writes and the inter-batch delay are side effects with no
bearing on the result; the `tier` argument only selects rate-limit delays. -/
def pcwgLoop (gen : List Char → Except Unit (List Char)) :
    Nat → List (List Char) → List (Option CR) → List (Option CR)
  | 0, _, acc => acc
  | _ + 1, [], acc => acc
  | fuel + 1, c :: cs, acc =>
    let batch := (c :: cs).take 2
    let prev : Json :=
      match acc.getLast? with
      | none => Json.null
      | some none => Json.undef
      | some (some r) => r.summary
    let br := GeminiService.analyzePaperChunks gen batch prev
    pcwgLoop gen fuel ((c :: cs).drop 2) (acc ++ pcwgEntries batch br.summaries)

structure HierSummary where
  overview : List Char
  sections : List Json

structure PCWGRes where
  aggregatedSummary : Json
  keywordsArray : List Json
  hierarchicalSummary : HierSummary

/-- Evaluation of
`chunkResults.map((r) => r.summary).filter(Boolean).join("\n\n")`: sparse
holes are skipped by `map`, falsy summaries dropped by the filter, and the
rest joined as strings. -/
def allSummariesOf (chunkResults : List (Option CR)) : List Char :=
  Js.joinSep "\n\n".toList
    ((((chunkResults.filterMap id).map (fun r => r.summary)).filter
        Json.truthy).map (fun j => j.joinElem))

/-- Evaluation of
`Array.from(new Set(chunkResults.flatMap((r) => r.keywords).filter(Boolean)))`. -/
def allKeywordsOf (chunkResults : List (Option CR)) : List Json :=
  dedupPrim ((((chunkResults.filterMap id).map (fun r => r.keywords)).map
      (fun j => j.flatElem)).flatten.filter Json.truthy)

/-- The `catch` fallback building `hierarchicalSummary`.  The imported
service default export (gemini.service.js) does not contain
`generateHierarchicalSummary`, so `geminiService.generateHierarchicalSummary`
is `undefined`, the call raises a `TypeError`, and this fallback is always
the value of `hierarchicalSummary`. -/
def hierFallback (allSummaries : List Char) : HierSummary :=
  ⟨if 1000 < allSummaries.length then allSummaries.take 1000 ++ "...".toList
    else allSummaries, []⟩

/-- Function `processChunksWithGemini` (paper controller): run the chunks
through `analyzePaperChunks` in 2-chunk batches, collect summaries and
keywords, build the hierarchical summary (always the fallback, see
`hierFallback`), and refine the aggregate
(`refineSummary(hierarchicalSummary.overview || allSummaries)`;
`refineSummary` catches internally, so the outer `catch` is dead code). -/
def processChunksWithGemini (gen : List Char → Except Unit (List Char))
    (chunks : List (List Char)) : PCWGRes :=
  let chunkResults := pcwgLoop gen (chunks.length + 1) chunks []
  let allSummaries := allSummariesOf chunkResults
  let hs := hierFallback allSummaries
  ⟨GeminiService.refineSummary gen
      (if hs.overview.isEmpty then allSummaries else hs.overview),
    (allKeywordsOf chunkResults).take 20,
    hs⟩

end PaperController

/-- Optional-chaining property read `o?.k`: `undefined` on a nullish
receiver instead of a `TypeError`. -/
def Json.optMem (j : Json) (k : List Char) : Json :=
  if j.isNullish then Json.undef else j.memT k

/-- JS `x.length < n` as used by the response validator: exact for strings
and arrays; for every other value that reaches it `.length` is `undefined`
and `undefined < n` is `false`. -/
def Json.lenLt (j : Json) (n : Nat) : Bool :=
  match j with
  | .str s => decide (s.length < n)
  | .arr l => decide (l.length < n)
  | _ => false

/-- Truthiness of `x?.length`: a nullish or length-less value gives
`undefined` (falsy), a string or array its length. -/
def Json.lenTruthy : Json → Bool
  | .str s => !s.isEmpty
  | .arr l => !l.isEmpty
  | _ => false

namespace PaperChat

/-- One `messageHistory` entry (`\x7brole, name?, content\x7d`). -/
structure Msg where
  role : List Char
  name : Option (List Char)
  content : Json

/-- The mutable conversation-loop context of `processChatMessage`
(`turns` is threaded separately, as in the source). -/
structure LoopSt where
  history : List Msg
  apiCallsMade : Nat
  used : List (List Char)
  data : List (List Char × Json)
  finalAnswer : Json

def MAX_API_CALLS : Nat := 3

def MAX_TURNS : Nat := 4

def steeringMsg : List Char :=
  "Please respond using only the allowed functions: getPaperDetails, searchKnowledgeBase, getChatHistory".toList

def maxDepthMsg : List Char :=
  "Maximum research depth reached. Providing final answer now.".toList

def fallbackMsg : List Char :=
  "Unable to generate a complete answer. Please try rephrasing your question.".toList

def analyzeMsg : List Char :=
  "Analyze these results and provide a answer in very detail.".toList

def noResultsMsg (q : List Char) : List Char :=
  "No results for \"".toList ++ q ++ "\". Try different terms.".toList

/-- Function `validateResponseStructure` (paperChat.controller.js).  `none`
means the structure is valid; `some` carries the steering error message.
Callers only reach it after a successful `parsed.final_answer` access, so
`parsed` is never nullish here and the total reads are faithful. -/
def validateResponseStructure (parsed : Json) : Option (List Char) :=
  let fa := parsed.memT "final_answer".toList
  let faContent := fa.optMem "content".toList
  if faContent.truthy
      && ((fa.memT "content".toList).memT "main_idea".toList).truthy
      && !(parsed.memT "thinking_process".toList).truthy then
    none
  else if !faContent.truthy
      || !(parsed.memT "thinking_process".toList).truthy then
    some "Invalid format. Required: main_idea, thinking_process".toList
  else
    let content := fa.memT "content".toList
    if !(content.memT "main_idea".toList).truthy
        || (content.memT "main_idea".toList).lenLt 50 then
      some "Main idea must be at least 50 characters for detailed responses".toList
    else if (match content.memT "supporting_evidence".toList with
        | Json.arr l => decide (l.length < 2)
        | _ => true) then
      some "At least 2 detailed evidence points are required".toList
    else if !(content.memT "critical_analysis".toList).truthy
        || (content.memT "critical_analysis".toList).lenLt 200 then
      some "Critical analysis must be at least 200 characters for detailed responses".toList
    else none

/-- Function `formatFinalAnswer` (paperChat.controller.js).  Template
interpolations coerce with `String(v)`; also only called with a non-nullish
`parsed`. -/
def formatFinalAnswer (parsed : Json) : Json :=
  let fa := parsed.memT "final_answer".toList
  let faContent := fa.optMem "content".toList
  if !faContent.truthy then Json.str "Could not generate response".toList
  else if (faContent.optMem "main_idea".toList).truthy
      && !(parsed.memT "function_call".toList).truthy
      && !(parsed.memT "thinking_process".toList).truthy then
    (fa.memT "content".toList).memT "main_idea".toList
  else
    let content := fa.memT "content".toList
    let mainIdea := if (content.memT "main_idea".toList).truthy then
        content.memT "main_idea".toList
      else Json.str "No main idea provided".toList
    let evidence : List Json :=
      match content.memT "supporting_evidence".toList with
      | Json.arr l => l
      | se => if se.truthy then [se] else []
    let analysis := if (content.memT "critical_analysis".toList).truthy then
        content.memT "critical_analysis".toList
      else Json.str []
    let d1 := mainIdea.jsStr ++ "\n\n".toList
    let d2 := if 0 < evidence.length then
        d1 ++ "## Key Evidence from Paper\n\n".toList
          ++ (evidence.enum.map (fun p =>
            "### Point ".toList ++ Nat.toDigits 10 (p.1 + 1) ++ "\n".toList
              ++ p.2.jsStr ++ "\n\n".toList)).flatten
      else d1
    Json.str (if analysis.truthy then
        d2 ++ "## Expert Analysis\n\n".toList ++ analysis.jsStr
      else d2)

/-- Function `handleFunctionCall`: the allowlist check, then the tool
dispatch (`callFunctionByName` with its caches is the `execTool` oracle).
A non-string or unlisted name throws.  Returns the validated name with the
tool result. -/
def handleFunctionCall (execTool : List Char → Json → Except Unit Json)
    (name params : Json) : Except Unit (List Char × Json) :=
  match name with
  | Json.str s =>
    if s = "getPaperDetails".toList ∨ s = "searchKnowledgeBase".toList
        ∨ s = "getChatHistory".toList then
      (execTool s params).map (fun r => (s, r))
    else Except.error ()
  | _ => Except.error ()

/-- The `try` body of one conversation turn: model call, parse, general
conversation check, validation, then either a function call or the final
answer.  All mutations happen after the last possible throw (the source
pushes only after `handleFunctionCall` resolves), so an error leaves the
state unchanged.  The returned flag is `true` on `break`. -/
def runTurnE (gw : List Msg → Except Unit (List Char))
    (execTool : List Char → Json → Except Unit Json)
    (question : List Char) (st : LoopSt) : Except Unit (LoopSt × Bool) :=
  match gw st.history with
  | .error e => .error e
  | .ok raw =>
    let parsed := GeminiService.parseGeminiResponse raw
    match parsed.memE "final_answer".toList with
    | .error e => .error e
    | .ok fa =>
      if ((fa.optMem "content".toList).optMem "main_idea".toList).truthy
          && !(parsed.memT "function_call".toList).truthy then
        .ok ({ st with finalAnswer := formatFinalAnswer parsed }, true)
      else
        match validateResponseStructure parsed with
        | some err =>
          .ok ({ st with
            history := st.history ++ [⟨"user".toList, none, Json.str err⟩] },
            false)
        | none =>
          let fc := parsed.memT "function_call".toList
          if (fc.optMem "name".toList).truthy then
            if MAX_API_CALLS ≤ st.apiCallsMade then
              .ok ({ st with
                history := st.history
                  ++ [⟨"user".toList, none, Json.str maxDepthMsg⟩],
                finalAnswer := formatFinalAnswer parsed }, true)
            else
              match handleFunctionCall execTool (fc.memT "name".toList)
                  (fc.memT "parameters".toList) with
              | .error e => .error e
              | .ok (s, toolResult) =>
                .ok ({ st with
                  used := if s ∈ st.used then st.used else st.used ++ [s],
                  data := Migrations.objUpsert st.data s toolResult,
                  apiCallsMade := st.apiCallsMade + 1,
                  history := st.history
                    ++ [⟨"function".toList, some s, toolResult⟩,
                        ⟨"user".toList, none, Json.str
                          (if s = "searchKnowledgeBase".toList
                              && !toolResult.lenTruthy then
                            noResultsMsg
                              (if ((fc.memT "parameters".toList).optMem
                                  "query".toList).truthy then
                                ((fc.memT "parameters".toList).optMem
                                  "query".toList).jsStr
                              else question)
                          else analyzeMsg)⟩] }, false)
          else
            .ok ({ st with finalAnswer := formatFinalAnswer parsed }, false)

/-- One turn with its `catch`: any thrown error only pushes the steering
message. -/
def runTurn (gw : List Msg → Except Unit (List Char))
    (execTool : List Char → Json → Except Unit Json)
    (question : List Char) (st : LoopSt) : LoopSt × Bool :=
  match runTurnE gw execTool question st with
  | .ok r => r
  | .error _ =>
    ({ st with
      history := st.history ++ [⟨"user".toList, none, Json.str steeringMsg⟩] },
      false)

/-- The `while (turns < MAX_TURNS && !finalAnswer)` loop.  Each iteration
increments `turns` first; fuel `MAX_TURNS` is exact because the guard
bounds the number of iterations. -/
def chatLoopAux (gw : List Msg → Except Unit (List Char))
    (execTool : List Char → Json → Except Unit Json)
    (question : List Char) : Nat → Nat → LoopSt → Nat × LoopSt
  | 0, turns, st => (turns, st)
  | fuel + 1, turns, st =>
    if turns < MAX_TURNS ∧ st.finalAnswer.truthy = false then
      match runTurn gw execTool question st with
      | (st1, true) => (turns + 1, st1)
      | (st1, false) => chatLoopAux gw execTool question fuel (turns + 1) st1
    else (turns, st)

/-- The conversation loop of `processChatMessage` from the first model call
on, with the final fallback answer.  The pre-loop context population only
seeds `initUsed`/`initData` (it never touches `apiCallsMade`), and
`initHistory` is the single message holding `buildInitialPrompt`; message
persistence is a side effect.  Returns `(turns, final state)`. -/
def processChatMessageLoop (gw : List Msg → Except Unit (List Char))
    (execTool : List Char → Json → Except Unit Json)
    (question : List Char) (initHistory : List Msg)
    (initUsed : List (List Char)) (initData : List (List Char × Json)) :
    Nat × LoopSt :=
  match chatLoopAux gw execTool question MAX_TURNS 0
      ⟨initHistory, 0, initUsed, initData, Json.null⟩ with
  | (turns, st) =>
    (turns,
      if st.finalAnswer.truthy then st
      else { st with finalAnswer := Json.str fallbackMsg })

/-- Scripted model reply 1: a `getPaperDetails` function call together with
a fully valid detailed structure. -/
def c9Reply1 : List Char :=
  "\x7b\"function_call\":\x7b\"name\":\"getPaperDetails\",\"parameters\":\x7b\x7d\x7d,\"thinking_process\":\"think\",\"final_answer\":\x7b\"content\":\x7b\"main_idea\":\"".toList
  ++ List.replicate 60 'm'
  ++ "\",\"supporting_evidence\":[\"e1\",\"e2\"],\"critical_analysis\":\"".toList
  ++ List.replicate 200 'x'
  ++ "\"\x7d\x7d\x7d".toList

/-- Scripted model reply 2: a general final answer. -/
def c9Reply2 : List Char :=
  "\x7b\"final_answer\":\x7b\"content\":\x7b\"main_idea\":\"All done here\"\x7d\x7d\x7d".toList

/-- The scripted gateway: the initial one-message history gets the function
call, every later history the final answer. -/
def c9Gw : List Msg → Except Unit (List Char) := fun h =>
  if h.length = 1 then .ok c9Reply1 else .ok c9Reply2

def c9Tool : List Char → Json → Except Unit Json := fun _ _ =>
  .ok (Json.obj [("title".toList, Json.str "T".toList)])

def c9Init : List Msg :=
  [⟨"user".toList, none, Json.str "What is this paper about?".toList⟩]

end PaperChat

/-! ## Theorems.  Everything from here on is a lemma or a claim theorem. -/

namespace Js

theorem hasNonWS_dropWhileWS (s : List Char) :
    hasNonWS (s.dropWhile isWS) = hasNonWS s := by
  induction s with
  | nil => rfl
  | cons c t ih =>
    by_cases h : isWS c = true
    · rw [List.dropWhile_cons, if_pos h, ih]
      simp [hasNonWS, h]
    · rw [List.dropWhile_cons, if_neg h]

theorem hasNonWS_reverse (s : List Char) : hasNonWS s.reverse = hasNonWS s := by
  simp [hasNonWS]

theorem hasNonWS_nil : hasNonWS [] = false := rfl

theorem hasNonWS_cons (c : Char) (t : List Char) :
    hasNonWS (c :: t) = (!isWS c || hasNonWS t) := by
  simp [hasNonWS]

theorem hasNonWS_trim (s : List Char) : hasNonWS (trim s) = hasNonWS s := by
  unfold trim
  rw [hasNonWS_reverse, hasNonWS_dropWhileWS, hasNonWS_reverse,
    hasNonWS_dropWhileWS]

theorem trim_eq_nil_of_ws (s : List Char) (h : hasNonWS s = false) :
    trim s = [] := by
  have : s.dropWhile isWS = [] := by
    rw [List.dropWhile_eq_nil_iff]
    intro x hx
    by_contra hws
    have : hasNonWS s = true := by
      simp only [hasNonWS, List.any_eq_true]
      exact ⟨x, hx, by simp [hws]⟩
    simp [this] at h
  simp [trim, this]

theorem hasNonWS_of_trim_ne_nil (s : List Char) (h : trim s ≠ []) :
    hasNonWS (trim s) = true := by
  by_contra hh
  have h0 : hasNonWS (trim s) = false := by
    cases hv : hasNonWS (trim s) with
    | false => rfl
    | true => exact absurd hv hh
  have h1 : hasNonWS s = false := by rw [← hasNonWS_trim]; exact h0
  exact h (trim_eq_nil_of_ws s h1)

theorem mem_trim {a : Char} {s : List Char} (h : a ∈ trim s) : a ∈ s := by
  unfold trim at h
  rw [List.mem_reverse] at h
  have h2 := (List.dropWhile_sublist (l := (s.dropWhile isWS).reverse) isWS).mem h
  rw [List.mem_reverse] at h2
  exact (List.dropWhile_sublist isWS).mem h2

theorem dropWhile_idem (p : Char → Bool) (l : List Char) :
    (l.dropWhile p).dropWhile p = l.dropWhile p := by
  induction l with
  | nil => rfl
  | cons c t ih =>
    by_cases h : p c = true
    · simp [List.dropWhile_cons, h, ih]
    · simp [List.dropWhile_cons, h]

theorem head?_dropWhile_not (p : Char → Bool) (l : List Char) {a : Char}
    (h : (l.dropWhile p).head? = some a) : p a = false := by
  induction l with
  | nil => simp at h
  | cons c t ih =>
    by_cases hc : p c = true
    · rw [List.dropWhile_cons, if_pos hc] at h
      exact ih h
    · rw [List.dropWhile_cons, if_neg hc] at h
      simp at h
      subst h
      simpa using hc

theorem getLast?_dropWhile (p : Char → Bool) (l : List Char)
    (h : l.dropWhile p ≠ []) : (l.dropWhile p).getLast? = l.getLast? := by
  induction l with
  | nil => simp at h
  | cons c t ih =>
    by_cases hc : p c = true
    · rw [List.dropWhile_cons, if_pos hc] at h ⊢
      rw [ih h]
      have ht : t ≠ [] := by
        intro he
        subst he
        simp at h
      cases t with
      | nil => exact absurd rfl ht
      | cons d u => simp [List.getLast?_cons_cons]
    · rw [List.dropWhile_cons, if_neg hc]

theorem dropWhile_eq_self_of_head (p : Char → Bool) (l : List Char)
    (h : ∀ a, l.head? = some a → p a = false) : l.dropWhile p = l := by
  cases l with
  | nil => rfl
  | cons c t =>
    have := h c rfl
    simp [List.dropWhile_cons, this]

theorem trim_trim (s : List Char) : trim (trim s) = trim s := by
  by_cases hnil : trim s = []
  · rw [hnil]; rfl
  · set u := s.dropWhile isWS with hu
    have htrim : trim s = (u.reverse.dropWhile isWS).reverse := by
      simp [trim, hu]
    have hd : u.reverse.dropWhile isWS ≠ [] := by
      intro he
      apply hnil
      rw [htrim, he]
      rfl
    -- the head of `trim s` is not whitespace
    have hheadlast : (trim s).head? = u.head? := by
      rw [htrim, List.head?_reverse, getLast?_dropWhile _ _ hd,
        List.getLast?_reverse]
    have hhead : ∀ a, (trim s).head? = some a → isWS a = false := by
      intro a ha
      rw [hheadlast] at ha
      have hu' : u.head? = some a := ha
      have : (s.dropWhile isWS).head? = some a := by rw [← hu]; exact hu'
      exact head?_dropWhile_not isWS s this
    have h1 : (trim s).dropWhile isWS = trim s :=
      dropWhile_eq_self_of_head _ _ hhead
    have h2 : (trim s).reverse = u.reverse.dropWhile isWS := by
      rw [htrim, List.reverse_reverse]
    calc trim (trim s)
        = (((trim s).dropWhile isWS).reverse.dropWhile isWS).reverse := rfl
      _ = ((trim s).reverse.dropWhile isWS).reverse := by rw [h1]
      _ = ((u.reverse.dropWhile isWS).dropWhile isWS).reverse := by rw [h2]
      _ = (u.reverse.dropWhile isWS).reverse := by rw [dropWhile_idem]
      _ = trim s := by rw [← htrim]

end Js

namespace PaperController

open Js

theorem take_eq_take_takeWhile (p : Char → Bool) :
    ∀ (t : List Char) (k : Nat), k ≤ (t.takeWhile p).length →
      t.take k = (t.takeWhile p).take k := by
  intro t
  induction t with
  | nil => intro k hk; simp at hk; simp [hk]
  | cons c u ih =>
    intro k hk
    by_cases hc : p c = true
    · rw [List.takeWhile_cons, if_pos hc] at hk ⊢
      cases k with
      | zero => simp
      | succ k =>
        simp only [List.take_succ_cons]
        rw [ih k (by simpa using hk)]
    · rw [List.takeWhile_cons, if_neg hc] at hk
      simp at hk
      simp [hk]

theorem ws_of_mem_take_takeWhile {t : List Char} {k : Nat} {a : Char}
    (hk : k ≤ (t.takeWhile isWS).length) (ha : a ∈ t.take k) :
    isWS a = true := by
  rw [take_eq_take_takeWhile isWS t k hk] at ha
  exact List.mem_takeWhile_imp ((List.take_sublist _ _).mem ha)

theorem hasNonWS_drop_of_ws_prefix {t : List Char} {k : Nat}
    (hk : k ≤ (t.takeWhile isWS).length) :
    hasNonWS (t.drop k) = hasNonWS t := by
  conv_rhs => rw [← List.take_append_drop k t]
  simp only [hasNonWS, List.any_append]
  have : (t.take k).any (fun c => !isWS c) = false := by
    rw [List.any_eq_false]
    intro a ha
    simp [ws_of_mem_take_takeWhile hk ha]
  rw [this]
  simp

theorem paraSepSplit_rem {c : Char} {rest rem : List Char}
    (h : paraSepSplit (c :: rest) = some rem) :
    c = '\n' ∧ rem.length < (c :: rest).length ∧
      hasNonWS rem = hasNonWS (c :: rest) := by
  by_cases hc : c = '\n'
  · subst hc
    refine ⟨rfl, ?_, ?_⟩ <;>
    · simp only [paraSepSplit] at h
      cases hlast : ((List.range (rest.takeWhile isWS).length).filter
          (fun j => (rest.takeWhile isWS).get? j == some '\n')).getLast? with
      | none => rw [hlast] at h; simp at h
      | some j =>
        rw [hlast] at h
        simp only [Option.some.injEq] at h
        subst h
        have hjmem := List.mem_of_getLast?_eq_some hlast
        have hjlt : j < (rest.takeWhile isWS).length := by
          have := (List.mem_filter.mp hjmem).1
          simpa [List.mem_range] using this
        have hkle : j + 1 ≤ (rest.takeWhile isWS).length := hjlt
        have hlen : (rest.takeWhile isWS).length ≤ rest.length :=
          (List.takeWhile_sublist _).length_le
        first
        | -- length goal
          calc (rest.drop (j + 1)).length = rest.length - (j + 1) := by
                simp
            _ < ('\n' :: rest).length := by simp; omega
        | -- hasNonWS goal
          calc hasNonWS (rest.drop (j + 1)) = hasNonWS rest :=
                hasNonWS_drop_of_ws_prefix hkle
            _ = hasNonWS ('\n' :: rest) := by
                rw [hasNonWS_cons]
                simp [show isWS '\n' = true from rfl]
  · exfalso
    have : paraSepSplit (c :: rest) = none := by
      unfold paraSepSplit
      split
      · rename_i t heq
        injection heq with h1 h2
        exact absurd h1 hc
      · rfl
    rw [this] at h
    exact Option.noConfusion h

theorem splitParasAux_sound :
    ∀ (fuel : Nat) (acc s : List Char), s.length < fuel →
      (hasNonWS acc || hasNonWS s) = true →
      ∃ p ∈ splitParasAux fuel acc s, hasNonWS p = true := by
  intro fuel
  induction fuel with
  | zero => intro acc s hl; omega
  | succ fuel ih =>
    intro acc s hl hne
    cases s with
    | nil =>
      refine ⟨acc.reverse, by simp [splitParasAux], ?_⟩
      rw [hasNonWS_reverse]
      simpa [hasNonWS_nil] using hne
    | cons c rest =>
      rw [show splitParasAux (fuel + 1) acc (c :: rest) =
          (match paraSepSplit (c :: rest) with
           | some rem => acc.reverse :: splitParasAux fuel [] rem
           | none => splitParasAux fuel (c :: acc) rest) from rfl]
      cases hsep : paraSepSplit (c :: rest) with
      | some rem =>
        obtain ⟨hc, hlt, heq⟩ := paraSepSplit_rem hsep
        by_cases hacc : hasNonWS acc = true
        · exact ⟨acc.reverse, by simp, by rw [hasNonWS_reverse]; exact hacc⟩
        · have hs : hasNonWS (c :: rest) = true := by
            rcases Bool.or_eq_true_iff.mp hne with h | h
            · exact absurd h hacc
            · exact h
          have hrem : hasNonWS rem = true := by rw [heq]; exact hs
          have hlen : rem.length < fuel := by
            simp at hl hlt
            omega
          obtain ⟨p, hp, hpn⟩ := ih [] rem hlen (by simp [hasNonWS_nil, hrem])
          exact ⟨p, by simp [hp], hpn⟩
      | none =>
        have hlen : rest.length < fuel := by simp at hl; omega
        have : (hasNonWS (c :: acc) || hasNonWS rest) = true := by
          rw [hasNonWS_cons] at hne ⊢
          rcases Bool.or_eq_true_iff.mp hne with h | h
          · simp [h]
          · rcases Bool.or_eq_true_iff.mp h with h' | h' <;> simp [h']
        exact ih (c :: acc) rest hlen this

theorem splitParas_sound (s : List Char) (h : hasNonWS s = true) :
    ∃ p ∈ splitParas s, hasNonWS p = true :=
  splitParasAux_sound (s.length + 1) [] s (by omega) (by simp [hasNonWS_nil, h])

end PaperController

namespace PaperController

open Js

theorem mechanicalChunks_sound (text : List Char) (size : Nat)
    (hsz : 1 ≤ size) (h : hasNonWS text = true) :
    ∃ c ∈ mechanicalChunks text size, hasNonWS c = true := by
  have hx : ∃ x ∈ text, isWS x = false := by
    simpa [hasNonWS] using h
  obtain ⟨x, hxmem, hxw⟩ := hx
  obtain ⟨idx, hlt, hget⟩ := List.mem_iff_getElem.mp hxmem
  refine ⟨trim ((text.drop ((idx / size) * size)).take size), ?_, ?_⟩
  · apply List.mem_map_of_mem
    rw [List.mem_range]
    have h1 : idx / size ≤ (text.length - 1) / size :=
      Nat.div_le_div_right (by omega)
    have h2 : (text.length - 1) / size < (text.length + size - 1) / size := by
      have : text.length - 1 + size = text.length + size - 1 := by omega
      calc (text.length - 1) / size < (text.length - 1) / size + 1 :=
            Nat.lt_succ_self _
        _ = (text.length - 1 + size) / size := (Nat.add_div_right _ (by omega)).symm
        _ = (text.length + size - 1) / size := by rw [this]
    omega
  · rw [hasNonWS_trim]
    have hmod : idx % size < size := Nat.mod_lt _ (by omega)
    have hsum : (idx / size) * size + idx % size = idx := by
      rw [Nat.mul_comm]
      exact Nat.div_add_mod idx size
    have hgetslice :
        ((text.drop ((idx / size) * size)).take size)[idx % size]? = some x := by
      rw [List.getElem?_take_of_lt hmod, List.getElem?_drop, hsum]
      exact List.getElem?_eq_some_iff.mpr ⟨hlt, hget⟩
    have hmem : x ∈ (text.drop ((idx / size) * size)).take size :=
      List.getElem?_mem hgetslice
    simp only [hasNonWS, List.any_eq_true]
    exact ⟨x, hmem, by simp [hxw]⟩

/-- Invariant of the paragraph-accumulation loop: some finished chunk or the
current accumulator contains a non-whitespace character. -/
def sizeInv (st : List (List Char) × List Char) : Prop :=
  (∃ c ∈ st.1, hasNonWS c = true) ∨ hasNonWS st.2 = true

theorem bySizeStep_inv (size : Nat) (st : List (List Char) × List Char)
    (para : List Char) (h : sizeInv st ∨ hasNonWS para = true) :
    sizeInv (bySizeStep size st para) := by
  obtain ⟨chunks, current⟩ := st
  unfold bySizeStep
  simp only
  split
  · -- push branch: (chunks ++ [trim current], para)
    rcases h with (⟨c, hc, hcn⟩ | hcur) | hpara
    · exact Or.inl ⟨c, by simp [hc], hcn⟩
    · exact Or.inl ⟨trim current, by simp, by rw [hasNonWS_trim]; exact hcur⟩
    · exact Or.inr hpara
  · -- append branch
    rcases h with (⟨c, hc, hcn⟩ | hcur) | hpara
    · exact Or.inl ⟨c, hc, hcn⟩
    · refine Or.inr ?_
      have hne : current.isEmpty = false := by
        cases current with
        | nil => rw [hasNonWS_nil] at hcur; exact absurd hcur (by simp)
        | cons a b => rfl
      rw [hne]
      simp only [Bool.false_eq_true, if_false, hasNonWS, List.any_append]
      simp only [hasNonWS] at hcur
      simp [hcur]
    · refine Or.inr ?_
      by_cases hne : current.isEmpty = true
      · rw [hne]; simpa using hpara
      · rw [show current.isEmpty = false by simpa using hne]
        simp only [Bool.false_eq_true, if_false, hasNonWS, List.any_append]
        simp only [hasNonWS] at hpara
        simp [hpara]

theorem bySizeFold_inv (size : Nat) :
    ∀ (ps : List (List Char)) (st : List (List Char) × List Char),
      (sizeInv st ∨ ∃ p ∈ ps, hasNonWS p = true) →
      sizeInv (ps.foldl (bySizeStep size) st) := by
  intro ps
  induction ps with
  | nil =>
    intro st h
    rcases h with h | ⟨p, hp, _⟩
    · simpa using h
    · simp at hp
  | cons q qs ih =>
    intro st h
    rw [List.foldl_cons]
    apply ih
    rcases h with h | ⟨p, hp, hpn⟩
    · exact Or.inl (bySizeStep_inv size st q (Or.inl h))
    · rcases List.mem_cons.mp hp with rfl | hp'
      · exact Or.inl (bySizeStep_inv size st _ (Or.inr hpn))
      · exact Or.inr ⟨p, hp', hpn⟩

theorem chunkTextBySize_sound (text : List Char) (size : Nat)
    (hsz : 1 ≤ size) (h : hasNonWS text = true) :
    ∃ c ∈ chunkTextBySize text size, hasNonWS c = true := by
  unfold chunkTextBySize
  simp only
  obtain ⟨p, hpmem, hpn⟩ := splitParas_sound text h
  have hinv : sizeInv ((splitParas text).foldl (bySizeStep size) ([], [])) :=
    bySizeFold_inv size (splitParas text) ([], []) (Or.inr ⟨p, hpmem, hpn⟩)
  set st := (splitParas text).foldl (bySizeStep size) ([], []) with hst
  set chunksF := (if st.2.isEmpty = true then st.1 else st.1 ++ [trim st.2])
    with hcf
  have hchunks : ∃ c ∈ chunksF, hasNonWS c = true := by
    rw [hcf]
    rcases hinv with ⟨c, hc, hcn⟩ | hcur
    · refine ⟨c, ?_, hcn⟩
      split
      · exact hc
      · simp [hc]
    · have hne : st.2.isEmpty = false := by
        cases hv : st.2 with
        | nil => rw [hv, hasNonWS_nil] at hcur; exact absurd hcur (by simp)
        | cons a b => rfl
      rw [hne]
      refine ⟨trim st.2, by simp, by rw [hasNonWS_trim]; exact hcur⟩
  split
  · exact mechanicalChunks_sound text size hsz h
  · exact hchunks

/-- Invariant of the section loop of `chunkTextBySections`: the chunk list is
either empty or owns a segment with a non-whitespace character. -/
def secInv (chunks : List (List Char)) : Prop :=
  chunks = [] ∨ ∃ c ∈ chunks, hasNonWS c = true

theorem sectionStep_inv (text : List Char) (size : Nat) (hsz : 1 ≤ size)
    (chunks : List (List Char)) (se : Nat × Nat) (h : secInv chunks) :
    secInv (sectionStep text size chunks se) := by
  unfold sectionStep
  simp only
  split
  · exact h
  · rename_i hlen
    split
    · -- oversized section, re-split with chunkTextBySize
      rename_i hbig
      have hne : trim (substr text se.1 se.2) ≠ [] := by
        intro he
        rw [he] at hlen
        simp at hlen
      have hnw : hasNonWS (trim (substr text se.1 se.2)) = true :=
        hasNonWS_of_trim_ne_nil _ hne
      obtain ⟨c, hc, hcn⟩ := chunkTextBySize_sound _ size hsz hnw
      exact Or.inr ⟨c, by simp [hc], hcn⟩
    · -- normal push
      have hne : trim (substr text se.1 se.2) ≠ [] := by
        intro he
        rw [he] at hlen
        simp at hlen
      exact Or.inr ⟨trim (substr text se.1 se.2), by simp,
        hasNonWS_of_trim_ne_nil _ hne⟩

theorem sectionFold_inv (text : List Char) (size : Nat) (hsz : 1 ≤ size) :
    ∀ (pairs : List (Nat × Nat)) (chunks : List (List Char)),
      secInv chunks → secInv (pairs.foldl (sectionStep text size) chunks) := by
  intro pairs
  induction pairs with
  | nil => intro chunks h; simpa using h
  | cons q qs ih =>
    intro chunks h
    rw [List.foldl_cons]
    exact ih _ (sectionStep_inv text size hsz chunks q h)

end PaperController

namespace PaperController

open Js

/-- Helper: the pre-fallback section chunk list satisfies the section
invariant. -/
theorem sectionChunksPre_inv (text : List Char) (size : Nat) (hsz : 1 ≤ size) :
    secInv (sectionChunksPre text size) := by
  unfold sectionChunksPre
  exact sectionFold_inv text size hsz _ [] (Or.inl rfl)

/-- C5 (amended): whenever the input text contains a non-whitespace character
and the fallback size is positive, the chunker returns at least one non-empty
segment (one that even contains a non-whitespace character). -/
theorem chunker_returns_nonempty_segment (text : List Char) (size : Nat)
    (hsz : 1 ≤ size) (h : hasNonWS text = true) :
    ∃ c ∈ chunkTextBySections text size, hasNonWS c = true ∧ c ≠ [] := by
  unfold chunkTextBySections
  simp only
  have hcne : ∀ c : List Char, hasNonWS c = true → c ≠ [] := by
    intro c hcn he
    rw [he, hasNonWS_nil] at hcn
    exact absurd hcn (by simp)
  split
  · obtain ⟨c, hc, hcn⟩ := chunkTextBySize_sound text size hsz h
    exact ⟨c, hc, hcn, hcne c hcn⟩
  · rename_i hlen
    rcases sectionChunksPre_inv text size hsz with hnil | ⟨c, hc, hcn⟩
    · rw [hnil] at hlen
      simp at hlen
    · exact ⟨c, hc, hcn, hcne c hcn⟩

/-- C5 witness: the amended theorem applied to a concrete document. -/
theorem chunker_returns_nonempty_segment_witness :
    ((1 : Nat) ≤ 1000 ∧ hasNonWS "hello world".toList = true)
    ∧ ∃ c ∈ chunkTextBySections "hello world".toList 1000,
        hasNonWS c = true ∧ c ≠ [] :=
  ⟨⟨by decide, by decide⟩,
    chunker_returns_nonempty_segment "hello world".toList 1000
      (by decide) (by decide)⟩

/-- C5 counterexample: the claim fails on the code in all three parts.
(1) The non-empty input `"\n\n"` chunks into zero segments.
(2) With `fallbackSize = 60`, the input `c5Oversize` (one 200-character
paragraph followed by a 60-character paragraph) yields a 200-character
segment, exceeding the fallback size: single paragraphs are never re-split.
(3) For `c5Dropped`, both returned segments are free of `'z'` although the
input ends in ten `'z'` characters: its final detected section (19 characters
after trimming) is below the 50-character floor and is dropped wholesale, so
the segments do not cover the input modulo boundary trimming. -/
theorem chunker_claim_counterexample :
    (chunkTextBySections c5WsOnly 1000 = []
      ∧ hasNonWS c5WsOnly = false ∧ c5WsOnly ≠ [])
    ∧ ((chunkTextBySections c5Oversize 60).map List.length = [200, 60]
      ∧ ¬ (200 : Nat) ≤ 60)
    ∧ ((chunkTextBySections c5Dropped 1000).map List.length = [60, 74]
      ∧ (chunkTextBySections c5Dropped 1000).all (fun s => !s.contains 'z') = true
      ∧ c5Dropped.contains 'z' = true) :=
  ⟨⟨by decide, by decide, by decide⟩,
   ⟨by decide, by decide⟩,
   ⟨by decide, by decide, by decide⟩⟩

/-- C6 counterexample: the concrete scenario of the spec yields one segment,
not two.  The `ABSTRACT` heading is at offset 0 and cannot match
`/\n\s*ABSTRACT.../` (no preceding newline); the two sections split at the
`INTRODUCTION` match (offset 17) are 17 and 21 characters after trimming, both
below the 50-character floor, so both are discarded and the chunker falls back
to size-based chunking of the whole 39-character text. -/
theorem chunk_scenario_counterexample :
    (chunkTextBySections c6Text 1000).length ≠ 2 := by decide

/-- C6 (amended): chunking `"ABSTRACT\nFoo bar.\nINTRODUCTION\nBaz qux."`
with `fallbackSize = 1000` yields exactly one segment, the whole text. -/
theorem chunk_scenario_single_segment :
    chunkTextBySections c6Text 1000 = [c6Text] := by decide

end PaperController

namespace PaperController

open Js

theorem patFirstIdxAux_none_of_noNL (alts : List (List Char)) :
    ∀ (s : List Char) (i : Nat), (∀ ch ∈ s, ch ≠ '\n') →
      patFirstIdxAux alts i s = none := by
  intro s
  induction s with
  | nil => intro i _; rfl
  | cons c rest ih =>
    intro i hnl
    have hc : c ≠ '\n' := hnl c (by simp)
    rw [show patFirstIdxAux alts i (c :: rest) =
        (if c == '\n' ∧ wsStarThenAlt alts rest then some i
         else patFirstIdxAux alts (i + 1) rest) from rfl]
    rw [if_neg (by simp [hc])]
    exact ih (i + 1) (fun ch hch => hnl ch (by simp [hch]))

theorem numberedAux_nil_of_noNL :
    ∀ (fuel : Nat) (s : List Char) (i : Nat), (∀ ch ∈ s, ch ≠ '\n') →
      numberedAux fuel i s = [] := by
  intro fuel
  induction fuel with
  | zero => intro s i _; rfl
  | succ fuel ih =>
    intro s i hnl
    cases s with
    | nil => rfl
    | cons c rest =>
      have hc : c ≠ '\n' := hnl c (by simp)
      rw [show numberedAux (fuel + 1) i (c :: rest) =
          (if c == '\n' then
            (match numberedTailLen rest with
             | some len => i :: numberedAux fuel (i + 1 + len) (rest.drop len)
             | none => numberedAux fuel (i + 1) rest)
           else numberedAux fuel (i + 1) rest) from rfl]
      rw [if_neg (by simp [hc])]
      exact ih rest (i + 1) (fun ch hch => hnl ch (by simp [hch]))

theorem rawBreaks_of_noNL (text : List Char) (hnl : ∀ ch ∈ text, ch ≠ '\n') :
    rawBreaks text = [0, text.length] := by
  unfold rawBreaks numberedIndices patFirstIdx
  rw [patFirstIdxAux_none_of_noNL _ _ _ hnl, patFirstIdxAux_none_of_noNL _ _ _ hnl,
    patFirstIdxAux_none_of_noNL _ _ _ hnl, patFirstIdxAux_none_of_noNL _ _ _ hnl,
    patFirstIdxAux_none_of_noNL _ _ _ hnl, patFirstIdxAux_none_of_noNL _ _ _ hnl,
    patFirstIdxAux_none_of_noNL _ _ _ hnl, numberedAux_nil_of_noNL _ _ _ hnl]
  rfl

theorem filter_range_eq_zero (n : Nat) :
    (List.range n).filter (fun i => i == 0) = if n = 0 then [] else [0] := by
  induction n with
  | zero => rfl
  | succ n ih =>
    rw [List.range_succ, List.filter_append, ih]
    cases n with
    | zero => rfl
    | succ m => simp

theorem filter_range_mem_pair (n : Nat) :
    (List.range (n + 1)).filter (fun i => [0, n].contains i) =
      if n = 0 then [0] else [0, n] := by
  rw [List.range_succ, List.filter_append]
  have h1 : (List.range n).filter (fun i => [0, n].contains i) =
      (List.range n).filter (fun i => i == 0) := by
    apply List.filter_congr
    intro i hi
    rw [List.mem_range] at hi
    have hne : i ≠ n := by omega
    simp [List.contains_cons, List.contains_nil, hne, Nat.beq_eq_true_eq,
      decide_eq_decide]
    rw [Bool.eq_iff_iff]
    simp
  rw [h1, filter_range_eq_zero]
  have h2 : [n].filter (fun i => [0, n].contains i) = [n] := by simp
  rw [h2]
  cases n with
  | zero => rfl
  | succ m => simp

theorem sortedBreaks_of_noNL (text : List Char)
    (hnl : ∀ ch ∈ text, ch ≠ '\n') :
    sortedBreaks text =
      if text.length = 0 then [0] else [0, text.length] := by
  unfold sortedBreaks
  rw [rawBreaks_of_noNL text hnl]
  exact filter_range_mem_pair text.length

theorem splitParasAux_of_noNL :
    ∀ (fuel : Nat) (acc s : List Char), s.length < fuel →
      (∀ ch ∈ s, ch ≠ '\n') →
      splitParasAux fuel acc s = [acc.reverse ++ s] := by
  intro fuel
  induction fuel with
  | zero => intro acc s h; omega
  | succ fuel ih =>
    intro acc s hl hnl
    cases s with
    | nil => simp [splitParasAux]
    | cons c rest =>
      have hc : c ≠ '\n' := hnl c (by simp)
      have hsep : paraSepSplit (c :: rest) = none := by
        unfold paraSepSplit
        split
        · rename_i t heq
          injection heq with h1 h2
          exact absurd h1 hc
        · rfl
      rw [show splitParasAux (fuel + 1) acc (c :: rest) =
          (match paraSepSplit (c :: rest) with
           | some rem => acc.reverse :: splitParasAux fuel [] rem
           | none => splitParasAux fuel (c :: acc) rest) from rfl]
      rw [hsep]
      rw [ih (c :: acc) rest (by simp at hl; omega)
        (fun ch hch => hnl ch (by simp [hch]))]
      simp

theorem splitParas_of_noNL (s : List Char) (hnl : ∀ ch ∈ s, ch ≠ '\n') :
    splitParas s = [s] := by
  unfold splitParas
  rw [splitParasAux_of_noNL (s.length + 1) [] s (by omega) hnl]
  simp

theorem bySizeStep_from_empty (size : Nat) (para : List Char) :
    bySizeStep size ([], []) para = ([], para) := by
  simp [bySizeStep]

/-- On a newline-free text, `chunkTextBySize` sees a single paragraph: the
whole text. -/
theorem chunkTextBySize_of_noNL (text : List Char) (size : Nat)
    (hnl : ∀ ch ∈ text, ch ≠ '\n') :
    chunkTextBySize text size =
      (if (if text.isEmpty = true then ([] : List (List Char))
           else [trim text]).length ≤ 1 ∧ size < text.length then
        mechanicalChunks text size
      else if text.isEmpty = true then [] else [trim text]) := by
  unfold chunkTextBySize
  rw [splitParas_of_noNL text hnl]
  simp only [List.foldl_cons, List.foldl_nil, bySizeStep_from_empty,
    List.nil_append]

/-- Shared helper for C10: on a trimmed, newline-free text none of the section
patterns can match, so `chunkTextBySections` returns exactly the result of
`chunkTextBySize`. -/
theorem sections_eq_bySize_of_noNL (text : List Char) (size : Nat)
    (hnl : ∀ ch ∈ text, ch ≠ '\n') (htr : trim text = text) :
    chunkTextBySections text size = chunkTextBySize text size := by
  unfold chunkTextBySections
  simp only
  have hpre : sectionChunksPre text size =
      if text.length = 0 then []
      else if text.length < 50 then []
      else if size < text.length then chunkTextBySize text size
      else [text] := by
    unfold sectionChunksPre
    rw [sortedBreaks_of_noNL text hnl]
    by_cases h0 : text.length = 0
    · rw [if_pos h0, if_pos h0]
      rfl
    · rw [if_neg h0, if_neg h0]
      have hsub : substr text 0 text.length = text := by
        unfold substr
        simp
      show List.foldl (sectionStep text size) []
          ([0, text.length].zip [0, text.length].tail) = _
      rw [show ([0, text.length].zip [0, text.length].tail) =
          [(0, text.length)] from rfl]
      rw [List.foldl_cons, List.foldl_nil]
      unfold sectionStep
      simp only [hsub, htr]
      by_cases h50 : text.length < 50
      · rw [if_pos h50, if_pos h50]
      · rw [if_neg h50, if_neg h50]
        by_cases hbig : size < text.length
        · rw [if_pos hbig, if_pos hbig]
          rfl
        · rw [if_neg hbig, if_neg hbig]
          rfl
  rw [hpre]
  by_cases h0 : text.length = 0
  · rw [if_pos h0]
    simp
  · rw [if_neg h0]
    by_cases h50 : text.length < 50
    · rw [if_pos h50]
      simp
    · rw [if_neg h50]
      by_cases hbig : size < text.length
      · rw [if_pos hbig]
        split
        · rfl
        · rfl
      · rw [if_neg hbig]
        simp

end PaperController

namespace Js

theorem trim_eq_self (s : List Char)
    (h1 : ∀ a, s.head? = some a → isWS a = false)
    (h2 : ∀ a, s.getLast? = some a → isWS a = false) : trim s = s := by
  have hd : s.dropWhile isWS = s := dropWhile_eq_self_of_head _ _ h1
  have hrev : ∀ a, s.reverse.head? = some a → isWS a = false := by
    intro a ha
    rw [List.head?_reverse] at ha
    exact h2 a ha
  have hd2 : s.reverse.dropWhile isWS = s.reverse :=
    dropWhile_eq_self_of_head _ _ hrev
  unfold trim
  rw [hd, hd2, List.reverse_reverse]

end Js

namespace PaperController

open Js

theorem collapseGo_chars :
    ∀ (s : List Char) (b : Bool) (c : Char),
      c ∈ collapseGo b s → c = ' ' ∨ isWS c = false := by
  intro s
  induction s with
  | nil => intro b c h; simp [collapseGo] at h
  | cons a rest ih =>
    intro b c h
    rw [show collapseGo b (a :: rest) =
        (if isWS a then
          (if b then collapseGo true rest else ' ' :: collapseGo true rest)
         else a :: collapseGo false rest) from rfl] at h
    by_cases ha : isWS a = true
    · rw [if_pos ha] at h
      cases b with
      | true => exact ih true c (by simpa using h)
      | false =>
        simp only [if_neg (by simp : ¬ (false = true))] at h
        rcases List.mem_cons.mp h with rfl | h'
        · exact Or.inl rfl
        · exact ih true c h'
    · rw [if_neg ha] at h
      rcases List.mem_cons.mp h with rfl | h'
      · exact Or.inr (by simpa using ha)
      · exact ih false c h'

theorem normalizeText_noNL (raw : List Char) :
    ∀ ch ∈ normalizeText raw, ch ≠ '\n' := by
  intro ch hch
  unfold normalizeText at hch
  have hmem := mem_trim hch
  rcases collapseGo_chars raw false ch hmem with rfl | hws
  · decide
  · intro he
    subst he
    exact absurd hws (by decide)

theorem normalizeText_trimmed (raw : List Char) :
    trim (normalizeText raw) = normalizeText raw :=
  trim_trim (collapseGo false raw)

/-- C10 (amended): on text produced by `extractTextFromPDF` (whose
`normalizeText` collapses all whitespace, newlines included, into single
spaces) none of the section-heading patterns can match — each requires a
literal newline before the heading — so `chunkTextBySections` returns exactly
the result of the size-based chunker `chunkTextBySize`, either through the
`≤ 1`-chunk fallback or by re-splitting the single whole-text section with
`chunkTextBySize`; section-aware chunking never contributes segment
boundaries. -/
theorem normalized_chunking_eq_bySize (raw : List Char) (size : Nat) :
    chunkTextBySections (normalizeText raw) size =
      chunkTextBySize (normalizeText raw) size :=
  sections_eq_bySize_of_noNL (normalizeText raw) size
    (normalizeText_noNL raw) (normalizeText_trimmed raw)

theorem sectionChunksPre_of_noNL (text : List Char) (size : Nat)
    (hnl : ∀ ch ∈ text, ch ≠ '\n') (htr : trim text = text) :
    sectionChunksPre text size =
      if text.length = 0 then []
      else if text.length < 50 then []
      else if size < text.length then chunkTextBySize text size
      else [text] := by
  unfold sectionChunksPre
  rw [sortedBreaks_of_noNL text hnl]
  by_cases h0 : text.length = 0
  · rw [if_pos h0, if_pos h0]
    rfl
  · rw [if_neg h0, if_neg h0]
    have hsub : substr text 0 text.length = text := by
      unfold substr
      simp
    show List.foldl (sectionStep text size) []
        ([0, text.length].zip [0, text.length].tail) = _
    rw [show ([0, text.length].zip [0, text.length].tail) =
        [(0, text.length)] from rfl]
    rw [List.foldl_cons, List.foldl_nil]
    unfold sectionStep
    simp only [hsub, htr]
    by_cases h50 : text.length < 50
    · rw [if_pos h50, if_pos h50]
    · rw [if_neg h50, if_neg h50]
      by_cases hbig : size < text.length
      · rw [if_pos hbig, if_pos hbig]
        rfl
      · rw [if_neg hbig, if_neg hbig]
        rfl

theorem mechanicalChunks_length (text : List Char) (size : Nat) :
    (mechanicalChunks text size).length = (text.length + size - 1) / size := by
  unfold mechanicalChunks
  rw [List.length_map, List.length_range]

theorem getLast?_replicate_succ (n : Nat) (c : Char) :
    (List.replicate (n + 1) c).getLast? = some c := by
  induction n with
  | zero => rfl
  | succ m ih =>
    have hrep : List.replicate (m + 1) c = c :: List.replicate m c :=
      List.replicate_succ c m
    rw [List.replicate_succ, hrep, List.getLast?_cons_cons, ← hrep, ih]

end PaperController

namespace PaperController

open Js

theorem collapseGo_replicate_nonws (c : Char) (hc : isWS c = false) :
    ∀ (n : Nat) (b : Bool) (rest : List Char),
      collapseGo b (List.replicate n c ++ rest) =
        List.replicate n c ++ collapseGo (if n = 0 then b else false) rest := by
  intro n
  induction n with
  | zero => intro b rest; simp
  | succ m ih =>
    intro b rest
    rw [List.replicate_succ, List.cons_append]
    rw [show collapseGo b (c :: (List.replicate m c ++ rest)) =
        (if isWS c then
          (if b then collapseGo true (List.replicate m c ++ rest)
           else ' ' :: collapseGo true (List.replicate m c ++ rest))
         else c :: collapseGo false (List.replicate m c ++ rest)) from rfl]
    rw [if_neg (by simp [hc])]
    rw [ih false rest]
    cases m with
    | zero => simp
    | succ k => simp

theorem c10Text_noNL : ∀ ch ∈ c10Text, ch ≠ '\n' := by
  intro ch hch
  unfold c10Text at hch
  rcases List.mem_append.mp hch with h | h
  · rw [List.eq_of_mem_replicate h]; decide
  · rcases List.mem_cons.mp h with rfl | h'
    · decide
    · rw [List.eq_of_mem_replicate h']; decide

theorem c10Text_length : c10Text.length = 3002 := by
  rw [c10Text, List.length_append, List.length_replicate, List.length_cons,
    List.length_replicate]

theorem c10Text_trimmed : trim c10Text = c10Text := by
  apply trim_eq_self
  · intro a ha
    rw [show c10Text.head? = some 'x' from rfl] at ha
    injection ha with ha
    subst ha
    rfl
  · intro a ha
    have hlast : c10Text.getLast? = some 'y' := by
      unfold c10Text
      rw [List.getLast?_append]
      rw [show (' ' :: List.replicate 1501 'y').getLast? =
          (List.replicate 1502 'y').getLast? from ?_]
      · rw [getLast?_replicate_succ]
        rfl
      · rw [show List.replicate 1502 'y' = 'y' :: List.replicate 1501 'y' from
          List.replicate_succ 'y' 1501]
        cases h : List.replicate 1501 'y' with
        | nil => simp [List.replicate] at h
        | cons d u => rw [List.getLast?_cons_cons, List.getLast?_cons_cons]
    rw [hlast] at ha
    injection ha with ha
    subst ha
    rfl

theorem collapseGo_nil (b : Bool) : collapseGo b [] = [] := rfl

theorem normalizeText_c10Text : normalizeText c10Text = c10Text := by
  have htail : collapseGo true (List.replicate 1501 'y') =
      List.replicate 1501 'y' := by
    have h2 := collapseGo_replicate_nonws 'y' rfl 1501 true []
    rw [List.append_nil, collapseGo_nil, List.append_nil] at h2
    exact h2
  have hXY : collapseGo (if 1500 = 0 then false else false)
      (' ' :: List.replicate 1501 'y') = ' ' :: List.replicate 1501 'y' := by
    rw [if_neg (by omega)]
    rw [show collapseGo false (' ' :: List.replicate 1501 'y') =
        ' ' :: collapseGo true (List.replicate 1501 'y') from rfl]
    rw [htail]
  have hcoll : collapseGo false c10Text = c10Text := by
    unfold c10Text
    rw [collapseGo_replicate_nonws 'x' rfl 1500 false
      (' ' :: List.replicate 1501 'y')]
    exact congrArg (List.replicate 1500 'x' ++ ·) hXY
  unfold normalizeText
  rw [hcoll]
  exact c10Text_trimmed

/-- C10 counterexample: for `c10Text` — a 3002-character, newline-free
`normalizeText` fixed point — and the upload path's default fallback size
3000, the single whole-text section is itself re-split by `chunkTextBySize`,
so the pre-fallback chunk list already has 2 chunks and the `≤ 1`-chunk
fallback branch of `chunkTextBySections` is NOT taken; the result still
equals `chunkTextBySize`'s. -/
theorem upload_chunking_counterexample :
    normalizeText c10Text = c10Text
    ∧ ¬ (sectionChunksPre c10Text 3000).length ≤ 1
    ∧ chunkTextBySections c10Text 3000 = chunkTextBySize c10Text 3000 := by
  have hnl := c10Text_noNL
  have htr := c10Text_trimmed
  refine ⟨normalizeText_c10Text, ?_, sections_eq_bySize_of_noNL _ _ hnl htr⟩
  rw [sectionChunksPre_of_noNL c10Text 3000 hnl htr]
  rw [if_neg (by rw [c10Text_length]; omega), if_neg (by rw [c10Text_length]; omega),
    if_pos (by rw [c10Text_length]; omega)]
  rw [chunkTextBySize_of_noNL c10Text 3000 hnl]
  have hne : c10Text.isEmpty = false := by
    rw [List.isEmpty_eq_false]
    intro he
    have := c10Text_length
    rw [he] at this
    simp at this
  rw [hne]
  rw [if_pos (by simp [c10Text_length])]
  rw [mechanicalChunks_length, c10Text_length]
  omega

end PaperController


namespace GeminiService

theorem acquire_expire (t : Tier) (st : RLState) (now : Nat)
    (h : windowMs t < now - st.lastRequestTime) (hreq : 1 ≤ t.requests) :
    acquire t st now = (⟨1, now⟩, now) := by
  unfold acquire
  simp only [if_pos h]
  rw [if_neg (by omega)]

theorem acquire_suspend (t : Tier) (st : RLState) (now : Nat)
    (h : ¬ windowMs t < now - st.lastRequestTime)
    (hc : t.requests ≤ st.requestCount) (hle : st.lastRequestTime ≤ now) :
    acquire t st now =
      (⟨1, st.lastRequestTime + windowMs t + 1000⟩,
        st.lastRequestTime + windowMs t + 1000) := by
  unfold acquire
  simp only [if_neg h]
  rw [if_pos hc]
  have heq : now + (windowMs t - (now - st.lastRequestTime)) + 1000 =
      st.lastRequestTime + windowMs t + 1000 := by omega
  rw [heq]

theorem acquire_normal (t : Tier) (st : RLState) (now : Nat)
    (h : ¬ windowMs t < now - st.lastRequestTime)
    (hc : st.requestCount < t.requests) :
    acquire t st now = (⟨st.requestCount + 1, st.lastRequestTime⟩, now) := by
  unfold acquire
  simp only [if_neg h]
  rw [if_neg (by omega)]

theorem runAcquires_cons (t : Tier) (st : RLState) (now0 d : Nat)
    (ds : List Nat) :
    runAcquires t st now0 (d :: ds) =
      ⟨(acquire t st (now0 + d)).2,
        (acquire t st (now0 + d)).1.lastRequestTime⟩ ::
        runAcquires t (acquire t st (now0 + d)).1
          (acquire t st (now0 + d)).2 ds := rfl

theorem countP_grant_cons (time ws w : Nat) (l : List GrantRec) :
    List.countP (fun r => r.ws == w) (⟨time, ws⟩ :: l) =
      List.countP (fun r => r.ws == w) l + (if ws = w then 1 else 0) := by
  rw [List.countP_cons]
  by_cases h : ws = w
  · simp [h]
  · simp [h]

/-- Window-count invariant of the limiter: the number of grants counted
against any window start `w` never exceeds the remaining capacity of the
current window when `w` is current, is zero for windows older than the
current one, and never exceeds `t.requests`. -/
theorem runAcquires_countP (t : Tier) (hreq : 1 ≤ t.requests) :
    ∀ (ds : List Nat) (st : RLState) (now0 w : Nat),
      st.lastRequestTime ≤ now0 → st.requestCount ≤ t.requests →
      (runAcquires t st now0 ds).countP (fun r => r.ws == w) ≤
        (if w < st.lastRequestTime then 0
         else if w = st.lastRequestTime then t.requests - st.requestCount
         else t.requests) := by
  intro ds
  induction ds with
  | nil =>
    intro st now0 w hle hcnt
    simp only [runAcquires, List.countP_nil]
    omega
  | cons d ds ih =>
    intro st now0 w hle hcnt
    rw [runAcquires_cons]
    set call := now0 + d with hcall
    have hcallge : st.lastRequestTime ≤ call := by omega
    by_cases hexp : windowMs t < call - st.lastRequestTime
    · -- window expired: reset to (1, call); grant runs at `call`
      rw [acquire_expire t st call hexp hreq]
      rw [show ((⟨1, call⟩ : RLState), call).1 = ⟨1, call⟩ from rfl,
        show ((⟨1, call⟩ : RLState), call).2 = call from rfl]
      rw [show (⟨1, call⟩ : RLState).lastRequestTime = call from rfl]
      rw [countP_grant_cons]
      have hrec := ih ⟨1, call⟩ call w (by simp) (by simpa using hreq)
      simp only at hrec
      have hlt : st.lastRequestTime < call := by omega
      by_cases hw : call = w
      · rw [if_pos hw]
        rw [if_neg (by omega), if_pos hw.symm] at hrec
        rw [if_neg (by omega), if_neg (by omega)]
        omega
      · rw [if_neg hw]
        by_cases hw2 : w < call
        · rw [if_pos hw2] at hrec
          by_cases ha : w < st.lastRequestTime
          · rw [if_pos ha]; omega
          · rw [if_neg ha]
            by_cases hb : w = st.lastRequestTime
            · rw [if_pos hb]; omega
            · rw [if_neg hb]; omega
        · rw [if_neg hw2, if_neg (by omega)] at hrec
          rw [if_neg (by omega), if_neg (by omega)]
          omega
    · by_cases hc : t.requests ≤ st.requestCount
      · -- counter full: suspend for the remaining window plus 1000 ms, reset
        rw [acquire_suspend t st call hexp hc hcallge]
        set resume := st.lastRequestTime + windowMs t + 1000 with hres
        rw [show ((⟨1, resume⟩ : RLState), resume).1 = ⟨1, resume⟩ from rfl,
          show ((⟨1, resume⟩ : RLState), resume).2 = resume from rfl]
        rw [show (⟨1, resume⟩ : RLState).lastRequestTime = resume from rfl]
        rw [countP_grant_cons]
        have hrec := ih ⟨1, resume⟩ resume w (by simp) (by simpa using hreq)
        simp only at hrec
        have hlt : st.lastRequestTime < resume := by omega
        by_cases hw : resume = w
        · rw [if_pos hw]
          rw [if_neg (by omega), if_pos hw.symm] at hrec
          rw [if_neg (by omega), if_neg (by omega)]
          omega
        · rw [if_neg hw]
          by_cases hw2 : w < resume
          · rw [if_pos hw2] at hrec
            by_cases ha : w < st.lastRequestTime
            · rw [if_pos ha]; omega
            · rw [if_neg ha]
              by_cases hb : w = st.lastRequestTime
              · rw [if_pos hb]; omega
              · rw [if_neg hb]; omega
          · rw [if_neg hw2, if_neg (by omega)] at hrec
            rw [if_neg (by omega), if_neg (by omega)]
            omega
      · -- room in the window: increment and run immediately at `call`
        have hcnt' : st.requestCount < t.requests := by omega
        rw [acquire_normal t st call hexp hcnt']
        rw [show ((⟨st.requestCount + 1, st.lastRequestTime⟩ : RLState),
            call).1 = ⟨st.requestCount + 1, st.lastRequestTime⟩ from rfl,
          show ((⟨st.requestCount + 1, st.lastRequestTime⟩ : RLState),
            call).2 = call from rfl]
        rw [show (⟨st.requestCount + 1, st.lastRequestTime⟩ :
            RLState).lastRequestTime = st.lastRequestTime from rfl]
        rw [countP_grant_cons]
        have hrec := ih ⟨st.requestCount + 1, st.lastRequestTime⟩ call w
          (by simpa using hcallge) (by simpa using hcnt')
        simp only at hrec
        by_cases hw : st.lastRequestTime = w
        · rw [if_pos hw]
          rw [if_neg (by omega), if_pos hw.symm] at hrec
          rw [if_neg (by omega), if_pos hw.symm]
          omega
        · rw [if_neg hw]
          by_cases ha : w < st.lastRequestTime
          · rw [if_pos ha] at hrec
            rw [if_pos ha]
            omega
          · rw [if_neg ha, if_neg (by omega)] at hrec
            rw [if_neg ha, if_neg (by omega)]
            omega

end GeminiService

namespace GeminiService

/-- C4: for every tier with a positive request budget, the rate limiter never
allows more than `tier.requests` acquisitions within any window measured from
the first acquisition after a reset (every grant is counted against the
`lastRequestTime` window start that was current when it ran, and no window
start collects more than `tier.requests` grants); when the counter has reached
the tier limit it suspends the caller until the window boundary plus the fixed
1000 ms safety margin and then resets the counter (to 1, counting the waiting
caller), and otherwise it increments the counter and proceeds at the call
instant. -/
theorem rateLimiter_window_bound (t : Tier) (t0 : Nat) (ds : List Nat)
    (w : Nat) (hreq : 1 ≤ t.requests) :
    ((runAcquires t ⟨0, t0⟩ t0 ds).countP (fun r => r.ws == w)) ≤ t.requests
    ∧ (∀ (st : RLState) (now : Nat), st.lastRequestTime ≤ now →
        ¬ windowMs t < now - st.lastRequestTime →
        t.requests ≤ st.requestCount →
        acquire t st now =
          (⟨1, st.lastRequestTime + windowMs t + 1000⟩,
            st.lastRequestTime + windowMs t + 1000))
    ∧ (∀ (st : RLState) (now : Nat),
        ¬ windowMs t < now - st.lastRequestTime →
        st.requestCount < t.requests →
        acquire t st now = (⟨st.requestCount + 1, st.lastRequestTime⟩, now)) := by
  refine ⟨?_, ?_, ?_⟩
  · have h := runAcquires_countP t hreq ds ⟨0, t0⟩ t0 w (by simp) (by simp)
    simp only at h
    by_cases ha : w < t0
    · rw [if_pos ha] at h
      omega
    · rw [if_neg ha] at h
      by_cases hb : w = t0
      · rw [if_pos hb] at h
        omega
      · rw [if_neg hb] at h
        exact h
  · intro st now hle hexp hc
    exact acquire_suspend t st now hexp hc hle
  · intro st now hexp hc
    exact acquire_normal t st now hexp hc

/-- C4 witness: the free tier (15 requests per minute) with four back-to-back
calls starting at time 0. -/
theorem rateLimiter_window_bound_witness :
    (1 : Nat) ≤ RATE_LIMIT_free.requests
    ∧ (((runAcquires RATE_LIMIT_free ⟨0, 0⟩ 0 [0, 0, 0, 0]).countP
        (fun r => r.ws == 0)) ≤ RATE_LIMIT_free.requests) :=
  ⟨by decide,
    (rateLimiter_window_bound RATE_LIMIT_free 0 [0, 0, 0, 0] 0 (by decide)).1⟩

end GeminiService

namespace Migrations

/-- C1 counterexample: the parser does not always return an object.  On the
input `"5"` both response parsers return the number 5, and on the unterminated
JSON input `"abc` (an opening quote then `abc`) the migrations parser's first
salvage strategy closes the string and returns the JSON string `"abc"` — in
all three cases a non-object value. -/
theorem parseGeminiResponse_counterexample :
    parseGeminiResponse "5".toList = Json.num ['5']
    ∧ (Json.num ['5']).isObj = false
    ∧ parseGeminiResponse "\"abc".toList = Json.str "abc".toList
    ∧ (Json.str "abc".toList).isObj = false
    ∧ GeminiService.parseGeminiResponse "5".toList = Json.num ['5'] :=
  ⟨by rfl, by rfl, by rfl, by rfl, by rfl⟩

/-- C1 (amended): for every input string the migrations `parseGeminiResponse`
never throws — every branch, the salvage chain included, returns normally —
and it always returns a JSON value; whenever the direct parse and all three
salvage strategies fail, that value is the degraded fallback object carrying
the raw text truncated to 500 characters and the parse error.  (It is an
object in that worst case, but a successful direct parse or salvage may
produce a non-object JSON value.) -/
theorem parseGeminiResponse_never_throws (response : List Char) :
    (parseGeminiResponseE response).isOk = true
    ∧ parseGeminiResponseE response = Except.ok (parseGeminiResponse response)
    ∧ (jsonParse (cleanMig response) = none →
        salvage1 response = none →
        salvage2 response = none →
        salvage3 response = none →
        parseGeminiResponse response = fallbackObj response) := by
  refine ⟨?_, ?_, ?_⟩
  · unfold parseGeminiResponseE jsonParseE
    cases h : jsonParse (cleanMig response) <;> rfl
  · unfold parseGeminiResponseE jsonParseE parseGeminiResponse
    cases h : jsonParse (cleanMig response) <;> rfl
  · intro h0 h1 h2 h3
    unfold parseGeminiResponse salvageChain
    rw [h0, h1, h2, h3]

/-- C1 witness: on the plain-text input `"hello"` the direct parse and every
salvage strategy fail, and the parser returns the degraded fallback object. -/
theorem parseGeminiResponse_never_throws_witness :
    (parseGeminiResponseE "hello".toList).isOk = true
    ∧ parseGeminiResponse "hello".toList = fallbackObj "hello".toList :=
  have h := parseGeminiResponse_never_throws "hello".toList
  ⟨h.1, h.2.2 rfl rfl rfl rfl⟩

end Migrations

namespace Migrations

open Js

/-- C7: when the query has no full-text match, no AND-substring match and no
per-term match on a document that has at least one chunk, `searchKnowledgeBase`
returns exactly one result — the text of the document's first chunk — as a
last-resort context anchor. -/
theorem searchKnowledgeBase_fallback_first_chunk
    (k : KBDoc) (fullText : List Char → List Chunk) (query : List Char)
    (maxResults : Nat) (c : Chunk) (rest : List Chunk)
    (hchunks : k.chunks = c :: rest)
    (hft : fullText query = [])
    (hterm : ∀ ch ∈ k.chunks,
      ∀ t ∈ (Js.splitWs query).filter (fun t => 3 < t.length),
        containsCI t ch.text = false) :
    searchKnowledgeBase (some k) fullText query maxResults = [c.text] := by
  unfold searchKnowledgeBase
  simp only
  set qts := (Js.splitWs query).filter (fun t => 3 < t.length) with hq
  rw [hft]
  simp only [List.take_nil]
  have hfilterAll : ∀ (p : Chunk → Bool), (∀ ch ∈ chunksOf (some k), p ch = false) →
      (chunksOf (some k)).filter p = [] := by
    intro p hp
    rw [List.filter_eq_nil_iff]
    intro a ha
    simp [hp a ha]
  have h2 : (if ([] : List Chunk).length = 0 ∧ 0 < qts.length then
      ((chunksOf (some k)).filter
        (fun ch => qts.all (fun t => containsCI t ch.text))).take maxResults
    else []) = [] := by
    split
    · rename_i hcond
      rw [hfilterAll _ ?_]
      · exact List.take_nil
      · intro ch hch
        cases hq2 : qts with
        | nil => rw [hq2] at hcond; simp at hcond
        | cons t ts =>
          rw [List.all_cons]
          have : containsCI t ch.text = false := by
            apply hterm ch hch
            rw [hq2]
            exact List.mem_cons_self t ts
          rw [this]
          rfl
    · rfl
  rw [h2]
  have h3 : (if ([] : List Chunk).length = 0 ∧ 0 < qts.length then
      (qts.map (fun t =>
        ((chunksOf (some k)).filter (fun ch => containsCI t ch.text)).take 1)).flatten
    else []) = [] := by
    split
    · rw [List.flatten_eq_nil_iff]
      intro l hl
      rw [List.mem_map] at hl
      obtain ⟨t, ht, hmap⟩ := hl
      rw [← hmap, hfilterAll _ ?_]
      · rfl
      · intro ch hch
        exact hterm ch hch t ht
    · rfl
  rw [h3, hchunks]
  rfl

/-- C7 witness: a one-chunk document and the query `"xyz123notfound"`, which
matches nothing. -/
theorem searchKnowledgeBase_fallback_witness :
    searchKnowledgeBase
        (some ⟨[⟨"hello world text".toList, "sum".toList, []⟩]⟩)
        (fun _ => []) "xyz123notfound".toList 3 =
      ["hello world text".toList] :=
  searchKnowledgeBase_fallback_first_chunk
    ⟨[⟨"hello world text".toList, "sum".toList, []⟩]⟩ (fun _ => [])
    "xyz123notfound".toList 3 ⟨"hello world text".toList, "sum".toList, []⟩ []
    rfl rfl (by decide)

/-- C8: `getPaperDetails` fails with a `NotFound` (`ApiError 404`) exactly
when no document with the given id owned by the given user exists, and
otherwise returns the paper's title, abstract, keywords, summary (defaulted to
the empty string) and populated hierarchical summary (defaulted to `null`). -/
theorem getPaperDetails_spec (papers : List PaperRec) (paperId userId : Nat) :
    (findOwned papers paperId userId = none →
      getPaperDetails papers paperId userId =
        Except.error ⟨404, "Paper not found".toList⟩)
    ∧ (∀ p, findOwned papers paperId userId = some p →
        getPaperDetails papers paperId userId =
          Except.ok ⟨p.title, p.abstract, p.keywords,
            (match p.summary with
             | some s => s
             | none => []),
            hsOf p⟩) := by
  constructor
  · intro h
    unfold getPaperDetails
    rw [h]
  · intro p h
    unfold getPaperDetails
    rw [h]

/-- C8 witness: a store with one paper owned by user 1 (looked up both as the
owner and as a stranger). -/
theorem getPaperDetails_spec_witness :
    (findOwned [⟨7, 1, ⟨"T".toList, "A".toList, [], some "S".toList, none⟩⟩] 7 2
        = none
      ∧ getPaperDetails [⟨7, 1, ⟨"T".toList, "A".toList, [], some "S".toList,
          none⟩⟩] 7 2 = Except.error ⟨404, "Paper not found".toList⟩)
    ∧ getPaperDetails [⟨7, 1, ⟨"T".toList, "A".toList, [], some "S".toList,
        none⟩⟩] 7 1 =
      Except.ok ⟨"T".toList, "A".toList, [], "S".toList, Json.null⟩ :=
  ⟨⟨by rfl, (getPaperDetails_spec _ 7 2).1 (by rfl)⟩,
    (getPaperDetails_spec _ 7 1).2 _ (by rfl)⟩

end Migrations

namespace GeminiService

/-- When the model call fails, `processBatch` returns the degraded batch
result: one `analysisFailedObj` per chunk and `merged = previousSummary || ""`. -/
theorem processBatch_fail (gen : List Char → Except Unit (List Char))
    (hgen : ∀ p, gen p = Except.error ()) (chunks : List (List Char))
    (prev : Json) :
    processBatch gen chunks prev =
      ⟨chunks.map (fun _ => analysisFailedObj),
        (if prev.truthy then prev else Json.str []), []⟩ := by
  unfold processBatch processBatchTry
  rw [hgen]
  rfl

/-- The 3-chunk batching partitions the chunk list. -/
theorem batches3_flatten :
    ∀ (fuel : Nat) (l : List (List Char)), l.length ≤ fuel →
      (batches3 fuel l).flatten = l := by
  intro fuel
  induction fuel with
  | zero =>
    intro l hl
    cases l with
    | nil => rfl
    | cons c cs => simp at hl
  | succ f ih =>
    intro l hl
    cases l with
    | nil => rfl
    | cons c cs =>
      rw [batches3, List.flatten_cons, ih _ ?_, List.take_append_drop]
      rw [List.length_drop]
      simp only [List.length_cons] at hl ⊢
      omega

/-- With a failing model call every chunk's summary in `analyzePaperChunks`
is the degraded object. -/
theorem analyzePaperChunks_fail (gen : List Char → Except Unit (List Char))
    (hgen : ∀ p, gen p = Except.error ()) (chunks : List (List Char))
    (prev : Json) :
    (analyzePaperChunks gen chunks prev).summaries
      = chunks.map (fun _ => analysisFailedObj) := by
  show ((((batches3 (chunks.length + 1) chunks).map
      (fun b => processBatch gen b prev)).map (fun r => r.summaries))).flatten
    = chunks.map (fun _ => analysisFailedObj)
  rw [List.map_map]
  have h1 : ((fun r => BatchRes.summaries r) ∘ fun b => processBatch gen b prev)
      = fun b => b.map (fun _ => analysisFailedObj) := by
    funext b
    show (processBatch gen b prev).summaries = _
    rw [processBatch_fail gen hgen]
  rw [h1, ← List.map_flatten, batches3_flatten _ _ (Nat.le_succ _)]

end GeminiService

/-- Reading a list and its image through `getD` at each index below the
length is the same as mapping over the list. -/
theorem range_map_getD_pair {α β γ : Type} (l : List α) (d : α) (d' : β)
    (f : α → β) (h2 : α → β → γ) :
    (List.range l.length).map
        (fun j => h2 (l.getD j d) ((l.map f).getD j d'))
      = l.map (fun a => h2 a (f a)) := by
  induction l with
  | nil => rfl
  | cons a t ih =>
    rw [List.length_cons, List.range_succ_eq_map, List.map_cons, List.map_map]
    simp only [Function.comp_def, Nat.succ_eq_add_one, List.getD_cons_succ,
      List.getD_cons_zero, List.map_cons]
    rw [ih]

namespace PaperController

/-- The inner storing loop on an all-degraded batch stores one defined entry
per chunk, each carrying the `"Analysis failed"` summary and no keywords. -/
theorem pcwgEntries_fail (batch : List (List Char)) :
    pcwgEntries batch (batch.map (fun _ => GeminiService.analysisFailedObj))
      = batch.map (fun t =>
          some ⟨t, Json.str "Analysis failed".toList, Json.arr []⟩) :=
  (range_map_getD_pair batch [] Json.undef
      (fun _ => GeminiService.analysisFailedObj)
      (fun a sj => crOf a sj)).trans (by rfl)

/-- With a failing model call, the outer loop of `processChunksWithGemini`
only ever appends defined entries whose summary is `"Analysis failed"`, and
it appends at least one entry when chunks and fuel remain. -/
theorem pcwgLoop_fail (gen : List Char → Except Unit (List Char))
    (hgen : ∀ p, gen p = Except.error ()) :
    ∀ (fuel : Nat) (rem : List (List Char)) (acc : List (Option CR)),
      (∀ e ∈ acc, ∃ t,
        e = some ⟨t, Json.str "Analysis failed".toList, Json.arr []⟩) →
      (∀ e ∈ pcwgLoop gen fuel rem acc, ∃ t,
        e = some ⟨t, Json.str "Analysis failed".toList, Json.arr []⟩)
      ∧ ((acc ≠ [] ∨ (rem ≠ [] ∧ fuel ≠ 0)) →
          pcwgLoop gen fuel rem acc ≠ []) := by
  intro fuel
  induction fuel with
  | zero =>
    intro rem acc hacc
    refine ⟨hacc, fun h => ?_⟩
    rcases h with h | ⟨_, h0⟩
    · exact h
    · exact absurd rfl h0
  | succ f ih =>
    intro rem acc hacc
    cases rem with
    | nil =>
      refine ⟨hacc, fun h => ?_⟩
      rcases h with h | ⟨h0, _⟩
      · exact h
      · exact absurd rfl h0
    | cons c cs =>
      have hstep : pcwgLoop gen (f + 1) (c :: cs) acc
          = pcwgLoop gen f ((c :: cs).drop 2)
              (acc ++ ((c :: cs).take 2).map (fun t =>
                some ⟨t, Json.str "Analysis failed".toList, Json.arr []⟩)) := by
        show pcwgLoop gen f ((c :: cs).drop 2)
            (acc ++ pcwgEntries ((c :: cs).take 2)
              (GeminiService.analyzePaperChunks gen ((c :: cs).take 2)
                (match acc.getLast? with
                 | none => Json.null
                 | some none => Json.undef
                 | some (some r) => r.summary)).summaries) = _
        rw [GeminiService.analyzePaperChunks_fail gen hgen, pcwgEntries_fail]
      rw [hstep]
      have hacc' : ∀ e ∈ acc ++ ((c :: cs).take 2).map (fun t =>
          some (⟨t, Json.str "Analysis failed".toList, Json.arr []⟩ : CR)), ∃ t,
          e = some ⟨t, Json.str "Analysis failed".toList, Json.arr []⟩ := by
        intro e he
        rcases List.mem_append.mp he with h | h
        · exact hacc e h
        · rcases List.mem_map.mp h with ⟨t, _, rfl⟩
          exact ⟨t, rfl⟩
      refine ⟨(ih _ _ hacc').1, fun _ => (ih _ _ hacc').2 (Or.inl ?_)⟩
      simp [List.take_cons]

/-- A join whose first element is non-empty is non-empty. -/
theorem joinSep_ne_nil (sep x : List Char) (l : List (List Char))
    (hx : x ≠ []) : Js.joinSep sep (x :: l) ≠ [] := by
  cases l with
  | nil => simpa [Js.joinSep]
  | cons y r => simp [Js.joinSep, hx]

end PaperController

/-- C3: given a batch whose model call fails, the batch pipeline substitutes
the degraded per-chunk result (`processBatch` returns one
`analysisFailedObj` per chunk), and `processChunksWithGemini` — which by
construction catches every fallible step, so it completes without raising —
still produces a hierarchical summary whose `overview` field is non-empty. -/
theorem batch_failure_degrades_gracefully
    (gen : List Char → Except Unit (List Char))
    (hgen : ∀ p, gen p = Except.error ())
    (chunks : List (List Char)) (hne : chunks ≠ []) (prev : Json) :
    (GeminiService.processBatch gen chunks prev).summaries
        = chunks.map (fun _ => GeminiService.analysisFailedObj)
    ∧ (PaperController.processChunksWithGemini gen chunks).hierarchicalSummary.overview
        ≠ [] := by
  constructor
  · rw [GeminiService.processBatch_fail gen hgen]
  · show (PaperController.hierFallback (PaperController.allSummariesOf
        (PaperController.pcwgLoop gen (chunks.length + 1) chunks []))).overview ≠ []
    obtain ⟨hP, hne'⟩ := PaperController.pcwgLoop_fail gen hgen
      (chunks.length + 1) chunks [] (by simp)
    set cr := PaperController.pcwgLoop gen (chunks.length + 1) chunks []
      with hcrdef
    have hcrne : cr ≠ [] := hne' (Or.inr ⟨hne, Nat.succ_ne_zero _⟩)
    obtain ⟨e0, rest, hcr2⟩ : ∃ e0 rest, cr = e0 :: rest := by
      cases h : cr with
      | nil => exact absurd h hcrne
      | cons a l => exact ⟨a, l, rfl⟩
    obtain ⟨t0, he0⟩ := hP e0 (by rw [hcr2]; exact List.mem_cons_self e0 rest)
    have hjoin : PaperController.allSummariesOf cr ≠ [] := by
      rw [PaperController.allSummariesOf, hcr2, he0]
      simp only [List.filterMap_cons, id_eq, List.map_cons, List.filter_cons]
      rw [if_pos (by decide), List.map_cons]
      have hje : (Json.str "Analysis failed".toList).joinElem
          = "Analysis failed".toList := by
        simp [Json.joinElem, Json.isNullish, Json.jsStr]
      rw [hje]
      exact PaperController.joinSep_ne_nil _ _ _ (by decide)
    rw [PaperController.hierFallback]
    dsimp only
    split
    · simp
    · exact hjoin

/-- C3 witness: three chunks through a constantly failing model call. -/
theorem batch_failure_degrades_gracefully_witness :
    (GeminiService.processBatch (fun _ => Except.error ())
        ["aa".toList, "bb".toList, "cc".toList] Json.null).summaries
        = ["aa".toList, "bb".toList, "cc".toList].map
            (fun _ => GeminiService.analysisFailedObj)
    ∧ (PaperController.processChunksWithGemini (fun _ => Except.error ())
        ["aa".toList, "bb".toList, "cc".toList]).hierarchicalSummary.overview
        ≠ [] :=
  batch_failure_degrades_gracefully (fun _ => Except.error ()) (fun _ => rfl)
    ["aa".toList, "bb".toList, "cc".toList] (by simp) Json.null

namespace PaperChat

/-- One turn either leaves `apiCallsMade` unchanged or, only when strictly
below the ceiling, increments it by one. -/
theorem runTurnE_api (gw : List Msg → Except Unit (List Char))
    (execTool : List Char → Json → Except Unit Json)
    (question : List Char) (st : LoopSt) (r : LoopSt) (b : Bool)
    (h : runTurnE gw execTool question st = .ok (r, b)) :
    r.apiCallsMade = st.apiCallsMade
    ∨ (st.apiCallsMade < MAX_API_CALLS
        ∧ r.apiCallsMade = st.apiCallsMade + 1) := by
  unfold runTurnE at h
  split at h
  · exact absurd h (by simp)
  · dsimp only at h
    split at h
    · exact absurd h (by simp)
    · split at h
      · rw [Except.ok.injEq, Prod.mk.injEq] at h
        left; rw [← h.1]
      · split at h
        · rw [Except.ok.injEq, Prod.mk.injEq] at h
          left; rw [← h.1]
        · split at h
          · split at h
            · rw [Except.ok.injEq, Prod.mk.injEq] at h
              left; rw [← h.1]
            · rename_i hlt
              split at h
              · exact absurd h (by simp)
              · rw [Except.ok.injEq, Prod.mk.injEq] at h
                right
                exact ⟨Nat.lt_of_not_le hlt, by rw [← h.1]⟩
          · rw [Except.ok.injEq, Prod.mk.injEq] at h
            left; rw [← h.1]

/-- One turn either leaves `apiCallsMade` unchanged or, only when strictly
below the ceiling, increments it by one. -/
theorem runTurn_api_cases (gw : List Msg → Except Unit (List Char))
    (execTool : List Char → Json → Except Unit Json)
    (question : List Char) (st : LoopSt) :
    (runTurn gw execTool question st).1.apiCallsMade = st.apiCallsMade
    ∨ (st.apiCallsMade < MAX_API_CALLS
        ∧ (runTurn gw execTool question st).1.apiCallsMade
            = st.apiCallsMade + 1) := by
  unfold runTurn
  cases hE : runTurnE gw execTool question st with
  | error e => left; rfl
  | ok p =>
    rcases p with ⟨r, b⟩
    simpa using runTurnE_api gw execTool question st r b hE

/-- The loop preserves the API-call ceiling. -/
theorem chatLoopAux_api (gw : List Msg → Except Unit (List Char))
    (execTool : List Char → Json → Except Unit Json)
    (question : List Char) :
    ∀ (fuel turns : Nat) (st : LoopSt), st.apiCallsMade ≤ MAX_API_CALLS →
      (chatLoopAux gw execTool question fuel turns st).2.apiCallsMade
        ≤ MAX_API_CALLS := by
  intro fuel
  induction fuel with
  | zero => intro turns st h; exact h
  | succ f ih =>
    intro turns st h
    rw [chatLoopAux]
    split
    · have hnext : (runTurn gw execTool question st).1.apiCallsMade
          ≤ MAX_API_CALLS := by
        rcases runTurn_api_cases gw execTool question st with h1 | ⟨h2, h3⟩
        · rw [h1]; exact h
        · rw [h3]; exact h2
      rcases hrt : runTurn gw execTool question st with ⟨st1, b⟩
      rw [hrt] at hnext
      cases b
      · exact ih (turns + 1) st1 hnext
      · exact hnext
    · exact h

/-- The loop adds at most `fuel` turns. -/
theorem chatLoopAux_turns (gw : List Msg → Except Unit (List Char))
    (execTool : List Char → Json → Except Unit Json)
    (question : List Char) :
    ∀ (fuel turns : Nat) (st : LoopSt),
      (chatLoopAux gw execTool question fuel turns st).1 ≤ turns + fuel := by
  intro fuel
  induction fuel with
  | zero => intro turns st; exact Nat.le_refl _
  | succ f ih =>
    intro turns st
    rw [chatLoopAux]
    split
    · rcases runTurn gw execTool question st with ⟨st1, b⟩
      cases b
      · exact le_trans (ih (turns + 1) st1) (by omega)
      · dsimp only
        omega
    · omega

end PaperChat

/-- C2: in every execution of the conversational agent loop of
`processChatMessage` — whatever the model gateway and tools do —
`apiCallsMade` never exceeds `MAX_API_CALLS`, the number of turns never
exceeds `MAX_TURNS`, and if the loop ends without a truthy final answer the
returned answer is the fixed degraded fallback message. -/
theorem agent_loop_invariants (gw : List PaperChat.Msg → Except Unit (List Char))
    (execTool : List Char → Json → Except Unit Json)
    (question : List Char) (initHistory : List PaperChat.Msg)
    (initUsed : List (List Char)) (initData : List (List Char × Json)) :
    (PaperChat.processChatMessageLoop gw execTool question initHistory
        initUsed initData).2.apiCallsMade ≤ PaperChat.MAX_API_CALLS
    ∧ (PaperChat.processChatMessageLoop gw execTool question initHistory
        initUsed initData).1 ≤ PaperChat.MAX_TURNS
    ∧ ((PaperChat.chatLoopAux gw execTool question PaperChat.MAX_TURNS 0
          ⟨initHistory, 0, initUsed, initData, Json.null⟩).2.finalAnswer.truthy
            = false →
        (PaperChat.processChatMessageLoop gw execTool question initHistory
          initUsed initData).2.finalAnswer = Json.str PaperChat.fallbackMsg) := by
  rcases hlp : PaperChat.chatLoopAux gw execTool question PaperChat.MAX_TURNS 0
      ⟨initHistory, 0, initUsed, initData, Json.null⟩ with ⟨t, s⟩
  have hunfold : PaperChat.processChatMessageLoop gw execTool question
      initHistory initUsed initData
      = (t, if s.finalAnswer.truthy then s
            else { s with finalAnswer := Json.str PaperChat.fallbackMsg }) := by
    rw [PaperChat.processChatMessageLoop, hlp]
  refine ⟨?_, ?_, ?_⟩
  · rw [hunfold]
    have := PaperChat.chatLoopAux_api gw execTool question PaperChat.MAX_TURNS 0
      ⟨initHistory, 0, initUsed, initData, Json.null⟩ (by simp [PaperChat.MAX_API_CALLS])
    rw [hlp] at this
    split
    · exact this
    · exact this
  · rw [hunfold]
    have := PaperChat.chatLoopAux_turns gw execTool question PaperChat.MAX_TURNS 0
      ⟨initHistory, 0, initUsed, initData, Json.null⟩
    rw [hlp] at this
    simpa using this
  · intro h
    have hs : s.finalAnswer.truthy = false := h
    rw [hunfold]
    show (if s.finalAnswer.truthy = true then s
      else { s with finalAnswer := Json.str PaperChat.fallbackMsg }).finalAnswer
        = Json.str PaperChat.fallbackMsg
    rw [if_neg (by rw [hs]; simp)]

/-- C2 witness: a gateway that always throws exhausts all four turns with no
tool calls and ends in the fixed fallback message. -/
theorem agent_loop_invariants_witness :
    (PaperChat.processChatMessageLoop (fun _ => Except.error ())
        (fun _ _ => Except.error ()) "q".toList [] [] []).2.apiCallsMade
      ≤ PaperChat.MAX_API_CALLS
    ∧ (PaperChat.processChatMessageLoop (fun _ => Except.error ())
        (fun _ _ => Except.error ()) "q".toList [] [] []).1
      ≤ PaperChat.MAX_TURNS
    ∧ (PaperChat.processChatMessageLoop (fun _ => Except.error ())
        (fun _ _ => Except.error ()) "q".toList [] [] []).2.finalAnswer
      = Json.str PaperChat.fallbackMsg :=
  ⟨(agent_loop_invariants (fun _ => Except.error ()) (fun _ _ => Except.error ())
      "q".toList [] [] []).1,
    (agent_loop_invariants (fun _ => Except.error ()) (fun _ _ => Except.error ())
      "q".toList [] [] []).2.1,
    (agent_loop_invariants (fun _ => Except.error ()) (fun _ _ => Except.error ())
      "q".toList [] [] []).2.2 (by rfl)⟩

/-- C9: with the scripted gateway whose first response requests
`getPaperDetails` and whose second is a final answer, the agent loop
terminates in exactly 2 turns having executed exactly 1 recorded tool
call. -/
theorem scripted_loop_two_turns_one_call :
    (PaperChat.processChatMessageLoop PaperChat.c9Gw PaperChat.c9Tool
        "q".toList PaperChat.c9Init [] []).1 = 2
    ∧ (PaperChat.processChatMessageLoop PaperChat.c9Gw PaperChat.c9Tool
        "q".toList PaperChat.c9Init [] []).2.apiCallsMade = 1 :=
  ⟨by rfl, by rfl⟩
